import Mathlib

/- Verification of the dd-house metric normalization engine (src/server.go).
   Strings are modelled as lists of characters, Go `interface{}` values as the
   inductive `Value`, Go float64 arithmetic as exact rationals, and Go maps as
   association lists processed in insertion order.  Code paths that panic in Go
   (out-of-range indexing, failed type assertions) are modelled with `Option`. -/

abbrev Str := List Char

def timeS : Str := "time".data
def hostnameS : Str := "hostname".data
def valueS : Str := "value".data

inductive Value where
  | vStr : Str → Value
  | vNum : ℚ → Value
  | vNat : Nat → Value
  | vInt : Int → Value
  | vNull : Value
  | vStrList : List Str → Value
deriving DecidableEq, Repr

/- Go numeric-string parsing (strconv), restricted to plain decimal syntax. -/

def isDigitCh (c : Char) : Bool := '0' ≤ c && c ≤ '9'

def digitsVal (l : Str) : Nat := l.foldl (fun a c => a * 10 + (c.toNat - 48)) 0

def parseSign : Str → Bool × Str
  | '-' :: r => (true, r)
  | '+' :: r => (false, r)
  | s => (false, s)

/-- Search for the first occurrence of a separator character: returns the part
before it and, when found, the part after it (Go strings.SplitN backbone). -/
def breakOn (sep : Char) : Str → Str × Option Str
  | [] => ([], none)
  | c :: cs =>
    if c = sep then ([], some cs)
    else
      let r := breakOn sep cs
      (c :: r.1, r.2)

def breakOnAny (seps : List Char) : Str → Str × Option Str
  | [] => ([], none)
  | c :: cs =>
    if seps.contains c then ([], some cs)
    else
      let r := breakOnAny seps cs
      (c :: r.1, r.2)

def parseUnsigned (s : Str) : Option ℚ :=
  match breakOn '.' s with
  | (ip, none) => if ip ≠ [] && ip.all isDigitCh then some ((digitsVal ip : ℚ)) else none
  | (ip, some fp) =>
    if (ip ≠ [] || fp ≠ []) && ip.all isDigitCh && fp.all isDigitCh then
      some ((digitsVal ip : ℚ) + (digitsVal fp : ℚ) / ((10 : ℚ) ^ fp.length))
    else none

def parseExp (s : Str) : Option Int :=
  let (neg, r) := parseSign s
  if r ≠ [] && r.all isDigitCh then
    some (if neg then -(digitsVal r : Int) else (digitsVal r : Int))
  else none

def qpow10 (e : Int) : ℚ :=
  if 0 ≤ e then (10 : ℚ) ^ e.toNat else 1 / ((10 : ℚ) ^ (-e).toNat)

/-- Model of strconv.ParseFloat on decimal syntax, returning none on a syntax
error (the Go callers all discard the error, keeping the zero value). -/
def parseFloatQ (s : Str) : Option ℚ :=
  let (neg, r) := parseSign s
  match breakOnAny ['e', 'E'] r with
  | (mant, expPart) =>
    match parseUnsigned mant with
    | none => none
    | some m =>
      match expPart with
      | none => some (if neg then -m else m)
      | some es =>
        match parseExp es with
        | none => none
        | some e => some (if neg then -(m * qpow10 e) else m * qpow10 e)

/-- Value actually used by the Go code, which ignores the ParseFloat error. -/
def goParseFloat (s : Str) : ℚ := (parseFloatQ s).getD 0

def int64Max : Int := 2 ^ 63 - 1
def int64Min : Int := -(2 ^ 63)

/-- Model of strconv.ParseInt(s, 10, 64) with the error discarded: 0 on a
syntax error, a clamped value on range overflow. -/
def goParseInt (s : Str) : Int :=
  let (neg, r) := parseSign s
  if r ≠ [] && r.all isDigitCh then
    let v : Int := if neg then -(digitsVal r : Int) else (digitsVal r : Int)
    if v > int64Max then int64Max else if v < int64Min then int64Min else v
  else 0

/-- Go uint64 conversion of a (nonnegative) float value. -/
def goUint64 (q : ℚ) : Nat := q.floor.toNat

/- GroupMetric (src/server.go:200-207). -/

/-- Model of strings.SplitN with a single-character separator; n is the maximum
number of chunks, the last chunk keeps the unsplit remainder. -/
def splitN (sep : Char) : Nat → Str → List Str
  | 0, _ => []
  | 1, s => [s]
  | n + 2, s =>
    match breakOn sep s with
    | (pre, none) => [pre]
    | (pre, some rest) => pre :: splitN sep (n + 1) rest

/-- GroupMetric splits a dotted name into (group, field).  Accessing split[1]
when the name has no dot is an out-of-range panic in Go, modelled as none. -/
def GroupMetric (name : Str) : Option (Str × Str) :=
  let split := splitN '.' 3 name
  if split.length > 2 then
    some ((split.getD 0 []) ++ '.' :: (split.getD 1 []), split.getD 2 [])
  else
    match split with
    | [a, b] => some (a, b)
    | _ => none

/-- Dotted path built from a list of segments (specification-side helper for
stating the grouping claims). -/
def joinDots : List Str → Str
  | [] => []
  | [a] => a
  | a :: b :: rest => a ++ '.' :: joinDots (b :: rest)

/- Association lists standing in for Go maps (keys unique, insertion order kept). -/

def lookupA {α : Type} (l : List (Str × α)) (k : Str) : Option α :=
  (l.find? (fun kv => kv.1 = k)).map (fun kv => kv.2)

/-- Go map assignment m[k] = v: overwrite the existing entry or append a new one. -/
def insertA {α : Type} (l : List (Str × α)) (k : Str) (v : α) : List (Str × α) :=
  if l.any (fun kv => kv.1 = k) then
    l.map (fun kv => if kv.1 = k then (k, v) else kv)
  else l ++ [(k, v)]

/- MetricRecord (src/server.go:129-133). -/

structure Metric where
  name : Str
  columns : List Str
  points : List (List Value)
deriving DecidableEq, Repr

/- NewMetricGroup (src/server.go:148-177): shared wide-row assembler.  The
base row is [timestamp, host]; value keys colliding with the reserved names
are renamed with a leading underscore; a tag keyed hostname unconditionally
overwrites row slot 1, any other tag is appended (renaming a literal time). -/

def nmgRenameV (k : Str) : Str :=
  if k = timeS ∨ k = hostnameS then '_' :: k else k

def nmgRenameT (k : Str) : Str :=
  if k = timeS then '_' :: k else k

def nmgValStep (s : List Str × List Value) (kv : Str × Value) :
    List Str × List Value :=
  (s.1 ++ [nmgRenameV kv.1], s.2 ++ [kv.2])

def nmgTagStep (s : List Str × List Value) (kv : Str × Value) :
    List Str × List Value :=
  if kv.1 = hostnameS then (s.1, s.2.set 1 kv.2)
  else (s.1 ++ [nmgRenameT kv.1], s.2 ++ [kv.2])

def NewMetricGroup (host name : Str) (timestamp : Nat)
    (values tags : List (Str × Value)) : Metric :=
  let s1 := values.foldl nmgValStep
    ([timeS, hostnameS], [Value.vNat timestamp, Value.vStr host])
  let s2 := tags.foldl nmgTagStep s1
  { name := name, columns := s2.1, points := [s2.2] }

/- mapDiskMetrics (src/server.go:429-445). -/

def diskMetrics : List Str :=
  [ "device".data, "total".data, "used".data, "free".data, "in_use".data, "mount".data]

/-- Disk/inode mapper: fields[4] is cast to a string (none on failure), its
last character is stripped (slicing an empty string panics: none), the rest is
parsed as a float whose error is discarded, and divided by 100. -/
def mapDiskMetrics (name host : Str) (timestamp : Nat) (data : List (List Value)) :
    Option Metric := do
  let pts ← data.mapM (fun fields =>
    match fields.get? 4 with
    | some (Value.vStr pct) =>
      if pct = [] then none
      else
        some ([Value.vNat timestamp, Value.vStr host] ++
          fields.set 4 (Value.vNum (goParseFloat pct.dropLast / 100)))
    | _ => none)
  some { name := name, columns := [timeS, hostnameS] ++ diskMetrics, points := pts }

/- mapIOMetrics (src/server.go:447-466). -/

def ioMetrics : List Str :=
  [ "util".data, "avg_q_sz".data, "avg_rq_sz".data, "await".data, "r_s".data,
    "r_await".data, "rkb_s".data, "rrqm_s".data, "svctm".data, "w_s".data,
    "w_await".data, "wkb_s".data, "wrqm_s".data]

def ioMetricMapping : List (Str × Str) :=
  [ ( "util".data, "%util".data), ( "avg_q_sz".data, "avgqu-sz".data),
    ( "avg_rq_sz".data, "avgrq-sz".data), ( "await".data, "await".data),
    ( "r_s".data, "r/s".data), ( "r_await".data, "r_await".data),
    ( "rkb_s".data, "rkB/s".data), ( "rrqm_s".data, "rrqm/s".data),
    ( "svctm".data, "svctm".data), ( "w_s".data, "w/s".data),
    ( "w_await".data, "w_await".data), ( "wkb_s".data, "wkB/s".data),
    ( "wrqm_s".data, "wrqm/s".data)]

/-- IO-stat mapper: for each device, every canonical column is fetched through
the raw-name table and cast to a string (a missing or non-string field is a
panic in Go: none); parse errors fall back to zero. -/
def mapIOMetrics (host : Str) (timestamp : Nat)
    (data : List (Str × List (Str × Value))) : Option Metric := do
  let pts ← data.mapM (fun dev => do
    let values ← ioMetrics.mapM (fun n =>
      match lookupA dev.2 ((lookupA ioMetricMapping n).getD []) with
      | some (Value.vStr s) => some (Value.vNum (goParseFloat s))
      | _ => none)
    some ([Value.vNat timestamp, Value.vStr host, Value.vStr dev.1] ++ values))
  some { name := "system.io".data,
         columns := [timeS, hostnameS, "device".data] ++ ioMetrics,
         points := pts }

/- GetProcessFamily and mapProcesses (src/server.go:468-520). -/

def indexAny (s : Str) (cs : List Char) : Int :=
  match s.findIdx? (fun c => cs.contains c) with
  | some i => (i : Int)
  | none => -1

def lastIndexOf (c : Char) (s : Str) : Int :=
  match s.reverse.findIdx? (fun x => x = c) with
  | some i => ((s.length - 1 - i : Nat) : Int)
  | none => -1

def GetProcessFamily (command : Str) : Str :=
  let idx := indexAny command [' ', '\t']
  let pref := if idx > 0 then command.take idx.toNat else command
  let li := lastIndexOf '/' pref
  pref.drop (li + 1).toNat

def processMetrics : List Str :=
  [ "user".data, "pid".data, "pct_cpu".data, "pct_mem".data, "vsz".data,
    "rss".data, "tty".data, "stat".data, "started".data, "running_time".data,
    "command".data]

def aggregateProcessMetrics : List Str :=
  [ "user".data, "pid".data, "pct_cpu".data, "pct_mem".data, "vsz".data,
    "rss".data, "family".data, "command".data, "ps_count".data]

/-- One process tuple, after the Go string casts of the fields the code reads
(indices 0-5 and 10 of the 11-column ps row). -/
structure ProcInput where
  user : Str
  pid : Str
  pctCpu : Str
  pctMem : Str
  vsz : Str
  rss : Str
  command : Str
deriving DecidableEq, Repr

/-- Aggregation bucket: the 9-slot result row of mapProcesses, whose fields
are overwritten by the latest folded sample except the running count. -/
structure ProcBucket where
  user : Str
  pid : Int
  pctCpu : ℚ
  pctMem : ℚ
  vsz : Int
  rss : Int
  family : Str
  command : Str
  psCount : Nat
deriving DecidableEq, Repr

def procIsKernel (p : ProcInput) : Bool := p.command.head? = some '['

def procKey (p : ProcInput) : Str :=
  if procIsKernel p then "kernel".data else p.command

def procFamily (p : ProcInput) : Str :=
  if procIsKernel p then "kernel".data else GetProcessFamily p.command

def procStep (agg : List (Str × ProcBucket)) (p : ProcInput) :
    List (Str × ProcBucket) :=
  let prev := match lookupA agg (procKey p) with
    | some b => b.psCount
    | none => 0
  insertA agg (procKey p)
    { user := p.user, pid := goParseInt p.pid, pctCpu := goParseFloat p.pctCpu,
      pctMem := goParseFloat p.pctMem, vsz := goParseInt p.vsz,
      rss := goParseInt p.rss, family := procFamily p, command := p.command,
      psCount := prev + 1 }

def renderBucket (timestamp : Nat) (host : Str) (b : ProcBucket) : List Value :=
  [ Value.vNat timestamp, Value.vStr host, Value.vStr b.user, Value.vInt b.pid,
    Value.vNum b.pctCpu, Value.vNum b.pctMem, Value.vInt b.vsz, Value.vInt b.rss,
    Value.vStr b.family, Value.vStr b.command, Value.vInt (b.psCount : Int)]

/-- Process mapper: aggregate per command (kernel threads collapse to one
bucket), then keep the buckets whose cpu or mem percentage reaches the filter. -/
def mapProcesses (processFilter : ℚ) (timestamp : Nat) (host : Str)
    (procs : List ProcInput) : Metric :=
  let agg := procs.foldl procStep []
  { name := "processes".data,
    columns := [timeS, hostnameS] ++ aggregateProcessMetrics,
    points := (agg.filter (fun kb =>
      processFilter ≤ kb.2.pctCpu ∨ processFilter ≤ kb.2.pctMem)).map
      (fun kb => renderBucket timestamp host kb.2) }

/- mapStatsd (src/server.go:209-263). -/

/-- One statsd series, after the JSON decode; a point is a (seconds, value)
pair as consumed by the code (points[i][0] is cast to float64). -/
structure StatsdMetric where
  tags : List Str
  metric : Str
  interval : ℚ
  host : Str
  points : List (ℚ × Value)
  type : Str
deriving DecidableEq, Repr

/-- Model of strings.SplitN(tag, ":", 2) followed by reading both halves; a
tag without a colon makes Go panic on split[1], hence none. -/
def splitColon (t : Str) : Option (Str × Str) :=
  match breakOn ':' t with
  | (pre, some rest) => some (pre, rest)
  | (_, none) => none

def applyStatsdTag (kv : Str × Str) (s : List Str × List (List Value)) :
    List Str × List (List Value) :=
  if kv.1 = hostnameS then
    (s.1, s.2.map (fun r => r.set 2 (Value.vStr kv.2)))
  else
    (s.1 ++ [if kv.1 = timeS ∨ kv.1 = valueS then '_' :: kv.1 else kv.1],
     s.2.map (fun r => r ++ [Value.vStr kv.2]))

/-- Assembly of one series given the current sticky host: time scaled to
milliseconds, host at slot 2, interval/type columns, then the tag loop. -/
def assembleSeries (host : Str) (m : StatsdMetric) : Option Metric := do
  let kvs ← m.tags.mapM splitColon
  let baseRows := m.points.map (fun p =>
    [ Value.vNat (goUint64 (p.1 * 1000)), p.2, Value.vStr host,
      Value.vNum m.interval, Value.vStr m.type])
  let s := kvs.foldl (fun s kv => applyStatsdTag kv s)
    ([timeS, valueS, hostnameS, "metric_interval".data, "metric_type".data],
     baseRows)
  some { name := "statsd.".data ++ m.metric, columns := s.1, points := s.2 }

def mapStatsdLoop : Str → List StatsdMetric → Option (List Metric × Str)
  | h, [] => some ([], h)
  | h, m :: rest => do
    let h' := if m.host ≠ [] then m.host else h
    let met ← assembleSeries h' m
    let (ms, hf) ← mapStatsdLoop h' rest
    some (met :: ms, hf)

/-- Final fixup pass: a row whose host slot is the empty string receives the
last sticky host of the whole batch. -/
def backfillRow (h : Str) (r : List Value) : List Value :=
  if r.get? 2 = some (Value.vStr []) then r.set 2 (Value.vStr h) else r

def mapStatsd (series : List StatsdMetric) : Option (List Metric) := do
  let (ms, hf) ← mapStatsdLoop [] series
  some (ms.map (fun met => { met with points := met.points.map (backfillRow hf) }))

/- ExtraMetric and mapExtraMetrics (src/server.go:522-621). -/

structure ExtraMetric where
  Values : List Value
  Tags : List (List (Str × Value))
  Timestamp : Nat
deriving DecidableEq, Repr

/-- Tag-merge step of ToMetric for the tag map of row i: rename a reserved
key, then either write into the row's slot of an existing column or append a
new column padded with null on every other row. -/
def tmTagStep (i : Nat) (s : List Str × List (List Value)) (kv : Str × Value) :
    List Str × List (List Value) :=
  let k := if kv.1 = timeS ∨ kv.1 = valueS then '_' :: kv.1 else kv.1
  match s.1.findIdx? (fun c => c = k) with
  | some j => (s.1, s.2.set i (((s.2.get? i).getD []).set j kv.2))
  | none =>
    (s.1 ++ [k], s.2.enum.map (fun jr =>
      jr.2 ++ [if jr.1 = i then kv.2 else Value.vNull]))

/-- Narrow-record conversion: one row per sample, all sharing the accumulator
timestamp; tag keys colliding with time/value are renamed; an existing column
is reused for the owning row, a new column is padded with null elsewhere. -/
def ExtraMetric.ToMetric (self : ExtraMetric) (host name : Str) : Metric :=
  let cols0 := [timeS, valueS, hostnameS]
  let pts0 := self.Values.map (fun v =>
    [Value.vNat self.Timestamp, v, Value.vStr host])
  let s := self.Tags.enum.foldl (fun s it => it.2.foldl (tmTagStep it.1) s)
    (cols0, pts0)
  { name := name, columns := s.1, points := s.2 }

/-- Explosion of a "tags" sub-list of "key:value" strings into individual
entries, overwriting same-named keys, with the "tags" entry itself deleted. -/
def explodeTags (tags : List (Str × Value)) : Option (List (Str × Value)) :=
  let base := tags.filter (fun kv => kv.1 ≠ "tags".data)
  match lookupA tags ("tags".data) with
  | none => some base
  | some (Value.vStrList l) => do
    let pairs ← l.mapM splitColon
    some ((pairs.foldl (fun acc kv => insertA acc kv.1 (Value.vStr kv.2)) base).filter
      (fun kv => kv.1 ≠ "tags".data))
  | some _ => none

def addToExtraMetric (em : ExtraMetric) (v : Value) (tags : List (Str × Value)) :
    Option ExtraMetric := do
  let tags' ← explodeTags tags
  some { em with Values := em.Values ++ [v], Tags := em.Tags ++ [tags'] }

/-- One entry of the ad-hoc metrics list: [name, epoch seconds, value, tag map]
after the Go casts. -/
structure ExtraInput where
  name : Str
  tsSec : ℚ
  value : Value
  tags : List (Str × Value)
deriving DecidableEq, Repr

/-- One accumulation step of mapExtraMetrics: group the sample by the
GroupMetric split of its name, creating the accumulator stamped with the
first arrival time when absent. -/
def buildExtraStep (groups : List (Str × List (Str × ExtraMetric)))
    (e : ExtraInput) : Option (List (Str × List (Str × ExtraMetric))) := do
  let gf ← GroupMetric e.name
  let timestamp := goUint64 (e.tsSec * 1000)
  let grp := (lookupA groups gf.1).getD []
  let em := (lookupA grp gf.2).getD ⟨[], [], timestamp⟩
  let em' ← addToExtraMetric em e.value e.tags
  some (insertA groups gf.1 (insertA grp gf.2 em'))

/-- Accumulation phase of mapExtraMetrics over the whole sample list. -/
def buildExtra (data : List ExtraInput) : Option (List (Str × List (Str × ExtraMetric))) :=
  data.foldlM buildExtraStep []

structure GroupAcc where
  metrics : List Metric
  groupValues : List (Str × Value)
  groupTags : List (Str × Value)
  groupTimestamp : Nat
deriving DecidableEq, Repr

/-- Output phase for one group: multi-sample fields become standalone records,
single-sample fields are collected into the wide-row value and tag maps. -/
def extraGroupStep (host g : Str) (s : GroupAcc) (fe : Str × ExtraMetric) :
    Option GroupAcc :=
  if fe.2.Values.length > 1 then
    some { s with metrics := s.metrics ++ [fe.2.ToMetric host (g ++ '.' :: fe.1)] }
  else do
    let v0 ← fe.2.Values.head?
    let t0 ← fe.2.Tags.head?
    some { s with
      groupValues := s.groupValues ++ [(fe.1, v0)],
      groupTags := t0.foldl (fun gt kv => insertA gt kv.1 kv.2) s.groupTags,
      groupTimestamp := fe.2.Timestamp }

def extraGroupOut (host g : Str) (fields : List (Str × ExtraMetric)) :
    Option (List Metric) := do
  let s ← fields.foldlM (extraGroupStep host g) ⟨[], [], [], 0⟩
  if s.groupValues ≠ [] then
    some (s.metrics ++ [NewMetricGroup host g s.groupTimestamp s.groupValues s.groupTags])
  else some s.metrics

def mapExtraMetrics (host : Str) (data : List ExtraInput) : Option (List Metric) := do
  let groups ← buildExtra data
  groups.foldlM (fun ms ge => do
    let out ← extraGroupOut host ge.1 ge.2
    some (ms ++ out)) []

/- Specification-side helper definitions used to state the claims. -/

def hStep (acc : Option Value) (kv : Str × Value) : Option Value :=
  if kv.1 = hostnameS then some kv.2 else acc

/-- Value of the last hostname-keyed tag of an association list, if any. -/
def lastHostTag (tags : List (Str × Value)) : Option Value := tags.foldl hStep none

/-- Non-hostname tags, the ones the tag loop appends as genuine columns. -/
def nonHostTags (l : List (Str × Value)) : List (Str × Value) :=
  l.filter (fun kv => !(kv.1 = hostnameS : Bool))

/-- The value ending up in the row's hostname slot: the last hostname tag if
present, the base host otherwise. -/
def hostSlot (host : Str) (tags : List (Str × Value)) : Value :=
  match lastHostTag tags with
  | some v => v
  | none => Value.vStr host

/-- Every row of a record has exactly one value per column. -/
def rowsMatch (m : Metric) : Prop :=
  ∀ r ∈ m.points, r.length = m.columns.length

/-- Number of samples of the extra-metrics list that the grouping rule sends
to a given (group, field) pair. -/
def countGF (data : List ExtraInput) (g f : Str) : Nat :=
  (data.filter (fun e => GroupMetric e.name = some (g, f) : ExtraInput → Bool)).length

/-- Single-sample fields of a group, in order, with their folded values: the
value map the wide row is built from. -/
def singlesOf (fields : List (Str × ExtraMetric)) : List (Str × ExtraMetric) :=
  fields.filter (fun fe => !(1 < fe.2.Values.length : Bool))

def singleFieldValues (fields : List (Str × ExtraMetric)) : List (Str × Value) :=
  (singlesOf fields).map (fun fe => (fe.1, fe.2.Values.headD Value.vNull))

def multisOf (fields : List (Str × ExtraMetric)) : List (Str × ExtraMetric) :=
  fields.filter (fun fe => (1 < fe.2.Values.length : Bool))

/-- Merged tag map of the single-sample fields of a group (first sample's tag
map of each, later fields overwriting earlier same-named keys). -/
def mergedTagsOf (fields : List (Str × ExtraMetric)) : List (Str × Value) :=
  (singlesOf fields).foldl
    (fun gt fe => (fe.2.Tags.headD []).foldl (fun gt kv => insertA gt kv.1 kv.2) gt) []

/-- Timestamp the wide row of a group carries: the accumulator timestamp of
the last single-sample field (zero when there is none). -/
def lastTsOf (fields : List (Str × ExtraMetric)) : Nat :=
  (singlesOf fields).foldl (fun _ fe => fe.2.Timestamp) 0

/-- Number of samples accumulated for (group, field) inside a built groups
structure. -/
def sizeGF (groups : List (Str × List (Str × ExtraMetric))) (g f : Str) : Nat :=
  ((lookupA groups g).bind (fun fields =>
    (lookupA fields f).map (fun em => em.Values.length))).getD 0

/-- Invariants the accumulation phase maintains for every group: field keys
are unique, every accumulator holds at least one sample, and it has one tag
map per sample. -/
def goodFields (fields : List (Str × ExtraMetric)) : Prop :=
  (fields.map Prod.fst).Nodup ∧
  ∀ fe ∈ fields, 1 ≤ fe.2.Values.length ∧ fe.2.Tags.length = fe.2.Values.length

def goodGroups (groups : List (Str × List (Str × ExtraMetric))) : Prop :=
  ∀ ge ∈ groups, goodFields ge.2

/-- Sticky-host fold of the statsd mapper across a series prefix. -/
def stickyHost (h : Str) (series : List StatsdMetric) : Str :=
  series.foldl (fun h m => if m.host ≠ [] then m.host else h) h

/-- Host override carried by a series' own tags: the value of its last
hostname tag, when every tag splits on a colon. -/
def seriesTagHost (m : StatsdMetric) : Option Str :=
  m.tags.foldl (fun acc t =>
    match splitColon t with
    | some kv => if kv.1 = hostnameS then some kv.2 else acc
    | none => acc) none

/-- Host of every point of series i as assembled by the main loop, before the
final backfill pass. -/
def assembledHost (series : List StatsdMetric) (i : Nat) : Str :=
  match (series.get? i).bind seriesTagHost with
  | some v => v
  | none => stickyHost [] (series.take (i + 1))

/-- Host of every point of series i after the final backfill pass. -/
def finalHost (series : List StatsdMetric) (i : Nat) : Str :=
  if assembledHost series i = [] then stickyHost [] series else assembledHost series i

/-- Concrete device field map with an unparseable utilization string, used to
instantiate the parse-fallback property. -/
def ioFieldsW : List (Str × Value) :=
  [ (( "%util").data, Value.vStr ("abc").data),
    (( "avgqu-sz").data, Value.vStr ("1").data),
    (( "avgrq-sz").data, Value.vStr ("1").data),
    (( "await").data, Value.vStr ("1").data),
    (( "r/s").data, Value.vStr ("1").data),
    (( "r_await").data, Value.vStr ("1").data),
    (( "rkB/s").data, Value.vStr ("1").data),
    (( "rrqm/s").data, Value.vStr ("1").data),
    (( "svctm").data, Value.vStr ("1").data),
    (( "w/s").data, Value.vStr ("1").data),
    (( "w_await").data, Value.vStr ("1").data),
    (( "wkB/s").data, Value.vStr ("1").data),
    (( "wrqm/s").data, Value.vStr ("1").data)]

/-- Concrete process tuple with an unparseable cpu percentage. -/
def procW : ProcInput :=
  { user := ("u").data, pid := ("1").data, pctCpu := ("zz").data,
    pctMem := ("2").data, vsz := ("3").data, rss := ("4").data,
    command := ("cmd").data }

/-- Concrete kernel-thread process tuples and the bucket the first one folds
into, used to instantiate the aggregation claims. -/
def procK1 : ProcInput :=
  { user := ("u").data, pid := ("1").data, pctCpu := ("5").data,
    pctMem := ("2").data, vsz := ("3").data, rss := ("4").data,
    command := ("[kworker/0]").data }

def procK2 : ProcInput :=
  { user := ("r").data, pid := ("2").data, pctCpu := ("1").data,
    pctMem := ("1").data, vsz := ("3").data, rss := ("4").data,
    command := ("[ksoftirqd]").data }

def procBucketW : ProcBucket :=
  { user := ("u").data, pid := 1, pctCpu := 5, pctMem := 2, vsz := 3, rss := 4,
    family := ("kernel").data, command := ("[kworker/0]").data, psCount := 1 }

/-- Concrete statsd series and extra-metric sample for witness instances. -/
def statsdW : StatsdMetric :=
  { tags := [("k:v").data], metric := ("m").data, interval := 10,
    host := ("A").data, points := [(1, Value.vNum 2)], type := ("g").data }

def extraW : ExtraInput :=
  { name := ("g.f").data, tsSec := 1, value := Value.vNum 5, tags := [] }

def diskRowW : List Value :=
  [ Value.vStr ("sda").data, Value.vNum 1, Value.vNum 2, Value.vNum 3,
    Value.vStr ("42%").data, Value.vStr ("/").data]

/-- Concrete extra-metrics batch: two samples for g.f, one for g.k. -/
def extraDataW : List ExtraInput :=
  [ { name := ("g.f").data, tsSec := 1, value := Value.vNum 5, tags := [] },
    { name := ("g.f").data, tsSec := 2, value := Value.vNum 6, tags := [] },
    { name := ("g.k").data, tsSec := 3, value := Value.vNum 7, tags := [] }]

/- General lemmas. -/

lemma breakOn_of_not_mem (sep : Char) (s : Str) (h : sep ∉ s) :
    breakOn sep s = (s, none) := by
  induction s with
  | nil => rfl
  | cons c cs ih =>
    have hc : c ≠ sep := fun hh => h (hh ▸ List.mem_cons_self c cs)
    have hcs : sep ∉ cs := fun hh => h (List.mem_cons_of_mem _ hh)
    simp [breakOn, if_neg hc, ih hcs]

lemma breakOn_append (sep : Char) (a r : Str) (h : sep ∉ a) :
    breakOn sep (a ++ sep :: r) = (a, some r) := by
  induction a with
  | nil => simp [breakOn]
  | cons c cs ih =>
    have hc : c ≠ sep := fun hh => h (hh ▸ List.mem_cons_self c cs)
    have hcs : sep ∉ cs := fun hh => h (List.mem_cons_of_mem _ hh)
    simp [breakOn, if_neg hc, ih hcs]

lemma breakOn_mem (sep : Char) (s : Str) (h : sep ∈ s) :
    ∃ p r, breakOn sep s = (p, some r) := by
  induction s with
  | nil => cases h
  | cons c cs ih =>
    by_cases hc : c = sep
    · exact ⟨[], cs, by simp [breakOn, hc]⟩
    · have hcs : sep ∈ cs := by
        cases h with
        | head => exact absurd rfl hc
        | tail _ hh => exact hh
      obtain ⟨p, r, hpr⟩ := ih hcs
      exact ⟨c :: p, r, by simp [breakOn, hc, hpr]⟩

lemma groupMetric_two (a b : Str) (ha : '.' ∉ a) (hb : '.' ∉ b) :
    GroupMetric (a ++ '.' :: b) = some (a, b) := by
  simp [GroupMetric, splitN, breakOn_append '.' a b ha, breakOn_of_not_mem '.' b hb]

lemma groupMetric_three (a b rest : Str) (ha : '.' ∉ a) (hb : '.' ∉ b) :
    GroupMetric (a ++ '.' :: (b ++ '.' :: rest)) = some (a ++ '.' :: b, rest) := by
  simp [GroupMetric, splitN, breakOn_append '.' a _ ha, breakOn_append '.' b rest hb]

lemma listSet_append_left {α : Type} (l₁ l₂ : List α) (n : Nat) (a : α)
    (h : n < l₁.length) : (l₁ ++ l₂).set n a = l₁.set n a ++ l₂ := by
  induction l₁ generalizing n with
  | nil => simp at h
  | cons x xs ih =>
    cases n with
    | zero => simp
    | succ m =>
      have h' : m < xs.length := by simpa using h
      show x :: (xs ++ l₂).set m a = x :: (xs.set m a ++ l₂)
      rw [ih m h']

lemma hStep_acc (l : List (Str × Value)) :
    ∀ a : Option Value, l.foldl hStep a =
      match lastHostTag l with
      | some v => some v
      | none => a := by
  induction l with
  | nil => intro a; simp [lastHostTag]
  | cons kv l ih =>
    intro a
    by_cases h : kv.1 = hostnameS
    · have h1 : List.foldl hStep a (kv :: l) = List.foldl hStep (some kv.2) l := by
        simp [hStep, h]
      have h2 : lastHostTag (kv :: l) = List.foldl hStep (some kv.2) l := by
        simp [lastHostTag, hStep, h]
      rw [h1, h2, ih (some kv.2)]
      cases hl : lastHostTag l <;> rfl
    · have h1 : List.foldl hStep a (kv :: l) = List.foldl hStep a l := by
        simp [hStep, h]
      have h2 : lastHostTag (kv :: l) = lastHostTag l := by
        simp [lastHostTag, hStep, h]
      rw [h1, h2, ih a]

lemma valFold_eq (l : List (Str × Value)) :
    ∀ s : List Str × List Value, l.foldl nmgValStep s =
      (s.1 ++ l.map (fun kv => nmgRenameV kv.1), s.2 ++ l.map Prod.snd) := by
  induction l with
  | nil => intro s; simp
  | cons kv l ih =>
    intro s
    rw [List.foldl_cons, ih (nmgValStep s kv)]
    simp [nmgValStep, List.append_assoc]

lemma tagFold_eq (l : List (Str × Value)) :
    ∀ s : List Str × List Value, 2 ≤ s.2.length →
      l.foldl nmgTagStep s =
        (s.1 ++ (nonHostTags l).map (fun kv => nmgRenameT kv.1),
         (match lastHostTag l with
          | some v => s.2.set 1 v
          | none => s.2) ++ (nonHostTags l).map Prod.snd) := by
  induction l with
  | nil => intro s _; simp [nonHostTags, lastHostTag]
  | cons kv l ih =>
    intro s hs
    by_cases h : kv.1 = hostnameS
    · have hstep : nmgTagStep s kv = (s.1, s.2.set 1 kv.2) := by
        simp [nmgTagStep, h]
      have hlen : 2 ≤ (s.2.set 1 kv.2).length := by simpa using hs
      have hl : lastHostTag (kv :: l) = List.foldl hStep (some kv.2) l := by
        simp [lastHostTag, hStep, h]
      have hnh : nonHostTags (kv :: l) = nonHostTags l := by
        simp [nonHostTags, h]
      rw [List.foldl_cons, hstep, ih _ hlen, hl, hStep_acc l (some kv.2), hnh]
      cases hll : lastHostTag l with
      | none => simp
      | some v => simp [List.set_set]
    · have hstep : nmgTagStep s kv = (s.1 ++ [nmgRenameT kv.1], s.2 ++ [kv.2]) := by
        simp [nmgTagStep, h]
      have hlen : 2 ≤ (s.2 ++ [kv.2]).length := by
        simp only [List.length_append]; omega
      have hl : lastHostTag (kv :: l) = lastHostTag l := by
        simp [lastHostTag, hStep, h]
      have hnh : nonHostTags (kv :: l) = kv :: nonHostTags l := by
        simp [nonHostTags, h]
      rw [List.foldl_cons, hstep, ih _ hlen, hl, hnh]
      cases hll : lastHostTag l with
      | none => simp
      | some v =>
        have : (s.2 ++ [kv.2]).set 1 v = s.2.set 1 v ++ [kv.2] :=
          listSet_append_left s.2 [kv.2] 1 v (by omega)
        simp [this]

lemma newMetricGroup_eq (host name : Str) (ts : Nat)
    (values tags : List (Str × Value)) :
    NewMetricGroup host name ts values tags =
      { name := name,
        columns := [timeS, hostnameS] ++ values.map (fun kv => nmgRenameV kv.1)
                   ++ (nonHostTags tags).map (fun kv => nmgRenameT kv.1),
        points := [[Value.vNat ts, hostSlot host tags] ++ values.map Prod.snd
                   ++ (nonHostTags tags).map Prod.snd] } := by
  simp only [NewMetricGroup]
  rw [valFold_eq]
  rw [tagFold_eq tags _ (by simp)]
  simp only [hostSlot]
  cases hl : lastHostTag tags with
  | none => simp
  | some v =>
    have hset : ([Value.vNat ts, Value.vStr host] ++ values.map Prod.snd).set 1 v
        = [Value.vNat ts, v] ++ values.map Prod.snd :=
      listSet_append_left _ _ 1 v (by simp)
    simp [hset]

lemma underscore_ne_hostname (k : Str) : ('_' :: k) ≠ hostnameS := by
  intro h
  have h0 : ('_' :: k).head? = hostnameS.head? := by rw [h]
  have h1 : hostnameS.head? = some 'h' := by decide
  rw [h1] at h0
  simp only [List.head?_cons, Option.some.injEq] at h0
  exact absurd h0 (by decide)

lemma nmgRenameV_ne_hostname (k : Str) : nmgRenameV k ≠ hostnameS := by
  unfold nmgRenameV
  by_cases h : k = timeS ∨ k = hostnameS
  · simp only [if_pos h]; exact underscore_ne_hostname k
  · simp only [if_neg h]; exact fun hh => h (Or.inr hh)

lemma nmgRenameT_ne_hostname (k : Str) (hk : k ≠ hostnameS) :
    nmgRenameT k ≠ hostnameS := by
  unfold nmgRenameT
  by_cases h : k = timeS
  · simp only [if_pos h]; exact underscore_ne_hostname k
  · simp only [if_neg h]; exact hk

/- Claim theorems. -/

/-- C1: for a canonical dotted name whose first two dot-free segments are a
and b, GroupMetric returns (a.b, remaining segments rejoined as one opaque
field name) when there are at least three segments, and (a, b) when there are
exactly two. -/
theorem groupMetric_grouping_rule (a b : Str) (ha : '.' ∉ a) (hb : '.' ∉ b) :
    (∀ (c : Str) (tl : List Str),
      GroupMetric (joinDots (a :: b :: c :: tl))
        = some (a ++ '.' :: b, joinDots (c :: tl))) ∧
    GroupMetric (joinDots [a, b]) = some (a, b) := by
  constructor
  · intro c tl
    have hj : joinDots (a :: b :: c :: tl)
        = a ++ '.' :: (b ++ '.' :: joinDots (c :: tl)) := by
      cases tl <;> simp [joinDots]
    rw [hj]
    exact groupMetric_three a b _ ha hb
  · have hj : joinDots [a, b] = a ++ '.' :: b := by simp [joinDots]
    rw [hj]
    exact groupMetric_two a b ha hb

theorem groupMetric_grouping_rule_witness :
    GroupMetric ("system.cpu.idle").data
      = some (("system.cpu").data, ("idle").data) ∧
    GroupMetric ("host.os").data = some (("host").data, ("os").data) := by
  constructor
  · exact (groupMetric_grouping_rule ("system").data ("cpu").data
      (by decide) (by decide)).1 ("idle").data []
  · exact (groupMetric_grouping_rule ("host").data ("os").data
      (by decide) (by decide)).2

/-- C10: GroupMetric is total exactly on names containing a dot; a dotless
name hits the out-of-range access of the second split segment (modelled as
none), and mapExtraMetrics feeds arbitrary agent names to GroupMetric, so a
dotless extra-metric name reaches that branch. -/
theorem groupMetric_dotless_partial :
    (∀ name : Str, '.' ∈ name → (GroupMetric name).isSome = true) ∧
    GroupMetric ("foo").data = none ∧
    mapExtraMetrics ("h").data
      [{ name := ("foo").data, tsSec := 1, value := Value.vNum 5, tags := [] }]
      = none := by
  refine ⟨?_, by decide, by decide⟩
  intro name hdot
  obtain ⟨p, r, hpr⟩ := breakOn_mem '.' name hdot
  have hsplit : splitN '.' 3 name = p :: splitN '.' 2 r := by
    simp [splitN, hpr]
  cases hbr : breakOn '.' r with
  | mk p2 o =>
    cases o with
    | none =>
      have h2 : splitN '.' 2 r = [p2] := by simp [splitN, hbr]
      simp [GroupMetric, hsplit, h2]
    | some r2 =>
      have h2 : splitN '.' 2 r = [p2, r2] := by simp [splitN, hbr]
      simp [GroupMetric, hsplit, h2]

theorem groupMetric_dotless_partial_witness :
    (GroupMetric ("a.b").data).isSome = true :=
  groupMetric_dotless_partial.1 ("a.b").data (by decide)

/-- C2 as stated is false: a hostname tag with an empty value does not leave
the host slot untouched; NewMetricGroup overwrites the slot unconditionally,
so the base host "h" is replaced by the empty string. -/
theorem hostname_tag_empty_counterexample :
    (((NewMetricGroup ("h").data ("m").data 5 []
        [(hostnameS, Value.vStr [])]).points.headD []).get? 1
      = some (Value.vStr [])) ∧
    (((NewMetricGroup ("h").data ("m").data 5 []
        [(hostnameS, Value.vStr [])]).points.headD []).get? 1
      ≠ some (Value.vStr ("h").data)) := by decide

/-- C2 (amended): a tag keyed hostname always overwrites the row's hostname
slot with its value — even an empty one, the last such tag winning — and the
hostname column itself is never duplicated by any tag or value key. -/
theorem hostname_tag_overwrites_slot (host name : Str) (ts : Nat)
    (values tags : List (Str × Value)) (v : Value)
    (hv : lastHostTag tags = some v) :
    (((NewMetricGroup host name ts values tags).points.headD []).get? 1
      = some v) ∧
    (NewMetricGroup host name ts values tags).columns.count hostnameS = 1 := by
  rw [newMetricGroup_eq]
  constructor
  · simp [hostSlot, hv]
  · simp only [List.count_append]
    have h0 : List.count hostnameS [timeS, hostnameS] = 1 := by decide
    have h1 : List.count hostnameS (values.map (fun kv => nmgRenameV kv.1)) = 0 := by
      rw [List.count_eq_zero]
      intro hmem
      obtain ⟨kv, _, hkv⟩ := List.mem_map.mp hmem
      exact nmgRenameV_ne_hostname kv.1 hkv
    have h2 : List.count hostnameS
        ((nonHostTags tags).map (fun kv => nmgRenameT kv.1)) = 0 := by
      rw [List.count_eq_zero]
      intro hmem
      obtain ⟨kv, hkvmem, hkv⟩ := List.mem_map.mp hmem
      have hne : kv.1 ≠ hostnameS := by
        have := List.of_mem_filter hkvmem
        simpa using this
      exact nmgRenameT_ne_hostname kv.1 hne hkv
    rw [h0, h1, h2]

theorem hostname_tag_overwrites_slot_witness :
    (((NewMetricGroup ("h").data ("m").data 5 []
        [(hostnameS, Value.vStr ("x").data)]).points.headD []).get? 1
      = some (Value.vStr ("x").data)) ∧
    (NewMetricGroup ("h").data ("m").data 5 []
        [(hostnameS, Value.vStr ("x").data)]).columns.count hostnameS = 1 :=
  hostname_tag_overwrites_slot ("h").data ("m").data 5 []
    [(hostnameS, Value.vStr ("x").data)] (Value.vStr ("x").data) (by decide)

lemma get?_some_lt {α : Type} {l : List α} {n : Nat} {a : α}
    (h : l.get? n = some a) : n < l.length := by
  by_contra hlt
  push_neg at hlt
  rw [List.get?_eq_none.mpr hlt] at h
  cases h

lemma mem_nonHostTags {kv : Str × Value} {tags : List (Str × Value)}
    (h : kv ∈ tags) (hne : kv.1 ≠ hostnameS) : kv ∈ nonHostTags tags := by
  refine List.mem_filter.mpr ⟨h, ?_⟩
  simpa using hne

lemma get?_append_offset {α : Type} (A l : List α) (i : Nat) :
    (A ++ l).get? (A.length + i) = l.get? i := by
  rw [List.get?_append_right (Nat.le_add_right _ _), Nat.add_sub_cancel_left]

lemma optSomeBind {α β : Type} (a : α) (f : α → Option β) :
    (some a).bind f = f a := rfl

lemma optNoneBind {α β : Type} (f : α → Option β) :
    (none : Option α).bind f = none := rfl

lemma optSomeBindM {α β : Type} (a : α) (f : α → Option β) :
    (do
      let x ← some a
      f x : Option β) = f a := rfl

/-- C7 fails as stated: a hostname tag with an empty value (which the claim
counts as a generic tag, the override being reserved for non-empty values) is
not renamed to _hostname and is not added as a column at all. -/
theorem hostname_tag_never_generic_counterexample :
    ('_' :: hostnameS) ∉ (NewMetricGroup ("h").data ("m").data 5 []
      [(hostnameS, Value.vStr [])]).columns ∧
    (NewMetricGroup ("h").data ("m").data 5 []
      [(hostnameS, Value.vStr [])]).columns = [timeS, hostnameS] := by decide

/-- C7 (amended): the reserved time and hostname columns head every wide row
and are never displaced; a generic tag keyed time is renamed _time and added
as a distinct column with its value; a base value keyed time or hostname is
renamed with a leading underscore and added as a distinct column with its
value.  (A tag keyed hostname always takes the override branch instead, as
shown by the counterexample, so only time can reach the tag rename.) -/
theorem reserved_keys_renamed (host name : Str) (ts : Nat)
    (values tags : List (Str × Value)) :
    ((NewMetricGroup host name ts values tags).columns.get? 0 = some timeS ∧
     (NewMetricGroup host name ts values tags).columns.get? 1 = some hostnameS) ∧
    (∀ v : Value, (timeS, v) ∈ tags →
      ∃ j, 2 ≤ j ∧
        (NewMetricGroup host name ts values tags).columns.get? j
          = some ('_' :: timeS) ∧
        ((NewMetricGroup host name ts values tags).points.headD []).get? j
          = some v) ∧
    (∀ kv : Str × Value, kv ∈ values → kv.1 = timeS ∨ kv.1 = hostnameS →
      ∃ j, 2 ≤ j ∧
        (NewMetricGroup host name ts values tags).columns.get? j
          = some ('_' :: kv.1) ∧
        ((NewMetricGroup host name ts values tags).points.headD []).get? j
          = some kv.2) := by
  rw [newMetricGroup_eq]
  simp only [List.headD_cons]
  refine ⟨⟨rfl, rfl⟩, ?_, ?_⟩
  · intro v hv
    have hmem : (timeS, v) ∈ nonHostTags tags :=
      mem_nonHostTags hv (fun h => absurd (show timeS = hostnameS from h) (by decide))
    obtain ⟨i, hi⟩ := List.mem_iff_get?.mp hmem
    refine ⟨([timeS, hostnameS] ++ values.map (fun kv => nmgRenameV kv.1)).length + i,
      by simp only [List.length_append, List.length_cons, List.length_nil]; omega,
      ?_, ?_⟩
    · rw [get?_append_offset, List.get?_map, hi]
      simp [nmgRenameT]
    · have hl : ([timeS, hostnameS] ++ values.map (fun kv => nmgRenameV kv.1)).length
          = ([Value.vNat ts, hostSlot host tags] ++ values.map Prod.snd).length := by
        simp
      rw [hl, get?_append_offset, List.get?_map, hi]
      rfl
  · intro kv hkv hres
    obtain ⟨i, hi⟩ := List.mem_iff_get?.mp hkv
    have hlen : i < values.length := get?_some_lt hi
    refine ⟨2 + i, by omega, ?_, ?_⟩
    · have hb : 2 + i < ([timeS, hostnameS]
          ++ values.map (fun kv => nmgRenameV kv.1)).length := by
        simp only [List.length_append, List.length_cons, List.length_nil,
          List.length_map]
        omega
      rw [List.get?_append hb]
      have e1 : 2 + i = ([timeS, hostnameS] : List Str).length + i := by simp
      rw [e1, get?_append_offset, List.get?_map, hi]
      simp only [Option.map_some', nmgRenameV, if_pos hres]
    · have hb : 2 + i < ([Value.vNat ts, hostSlot host tags]
          ++ values.map Prod.snd).length := by
        simp only [List.length_append, List.length_cons, List.length_nil,
          List.length_map]
        omega
      rw [List.get?_append hb]
      have e1 : 2 + i = ([Value.vNat ts, hostSlot host tags] : List Value).length + i := by
        simp
      rw [e1, get?_append_offset, List.get?_map, hi]
      rfl

theorem reserved_keys_renamed_witness :
    (∃ j, 2 ≤ j ∧
      (NewMetricGroup ("h").data ("m").data 5 [(timeS, Value.vNum 1)]
        [(timeS, Value.vStr ("x").data)]).columns.get? j = some ('_' :: timeS) ∧
      ((NewMetricGroup ("h").data ("m").data 5 [(timeS, Value.vNum 1)]
        [(timeS, Value.vStr ("x").data)]).points.headD []).get? j
        = some (Value.vStr ("x").data)) ∧
    (∃ j, 2 ≤ j ∧
      (NewMetricGroup ("h").data ("m").data 5 [(timeS, Value.vNum 1)]
        [(timeS, Value.vStr ("x").data)]).columns.get? j = some ('_' :: timeS) ∧
      ((NewMetricGroup ("h").data ("m").data 5 [(timeS, Value.vNum 1)]
        [(timeS, Value.vStr ("x").data)]).points.headD []).get? j
        = some (Value.vNum 1)) :=
  ⟨(reserved_keys_renamed ("h").data ("m").data 5 [(timeS, Value.vNum 1)]
      [(timeS, Value.vStr ("x").data)]).2.1 (Value.vStr ("x").data)
      (List.mem_singleton.mpr rfl),
   (reserved_keys_renamed ("h").data ("m").data 5 [(timeS, Value.vNum 1)]
      [(timeS, Value.vStr ("x").data)]).2.2 (timeS, Value.vNum 1)
      (List.mem_singleton.mpr rfl) (Or.inl rfl)⟩

lemma mapM_option_spec {α β : Type} (f : α → Option β) (l : List α)
    (h : ∀ a ∈ l, ∃ b, f a = some b) :
    ∃ l', l.mapM f = some l' ∧ l'.length = l.length ∧
      ∀ i a, l.get? i = some a → ∃ b, f a = some b ∧ l'.get? i = some b := by
  induction l with
  | nil =>
    refine ⟨[], rfl, rfl, ?_⟩
    intro i a hh
    rw [List.get?_eq_none.mpr (by simp)] at hh
    cases hh
  | cons x xs ih =>
    obtain ⟨b, hb⟩ := h x (List.mem_cons_self _ _)
    obtain ⟨l', hl', hlen, hspec⟩ := ih (fun a ha => h a (List.mem_cons_of_mem _ ha))
    refine ⟨b :: l', ?_, by simp [hlen], ?_⟩
    · rw [List.mapM_cons, hb, hl']
      rfl
    · intro i a hga
      cases i with
      | zero =>
        simp only [List.get?] at hga
        cases hga
        exact ⟨b, hb, rfl⟩
      | succ n => exact hspec n a hga

/-- C8: an in_use field given as any percent string s ++ "%" is transformed by
stripping the trailing percent sign and dividing the parsed number by 100; in
particular a batch of disk tuples whose in_use fields parse as q yields rows
carrying q / 100 in the in_use column. -/
theorem disk_in_use_percent (name host : Str) (ts : Nat) (data : List (List Value))
    (h4 : ∀ fields ∈ data, ∃ s : Str, fields.get? 4 = some (Value.vStr (s ++ ['%']))) :
    ∃ mres, mapDiskMetrics name host ts data = some mres ∧
      mres.points.length = data.length ∧
      ∀ (i : Nat) (fields : List Value) (s : Str) (q : ℚ),
        data.get? i = some fields →
        fields.get? 4 = some (Value.vStr (s ++ ['%'])) →
        parseFloatQ s = some q →
        (mres.points.get? i).bind (fun r => r.get? 6) = some (Value.vNum (q / 100)) := by
  have hall : ∀ fields ∈ data, ∃ r,
      (match fields.get? 4 with
       | some (Value.vStr pct) =>
         if pct = [] then none
         else
           some ([Value.vNat ts, Value.vStr host] ++
             fields.set 4 (Value.vNum (goParseFloat pct.dropLast / 100)))
       | _ => none) = some r := by
    intro fields hf
    obtain ⟨s, hs⟩ := h4 fields hf
    rw [hs]
    simp
  obtain ⟨pts, hpts, hlen, hspec⟩ := mapM_option_spec _ data hall
  refine ⟨{ name := name, columns := [timeS, hostnameS] ++ diskMetrics,
            points := pts }, ?_, ?_, ?_⟩
  · unfold mapDiskMetrics
    rw [hpts]
    rfl
  · exact hlen
  · intro i fields s q hdi hf4 hq
    obtain ⟨r, hr, hri⟩ := hspec i fields hdi
    simp only [hf4] at hr
    have hne : ¬(s ++ ['%'] = []) := by simp
    rw [if_neg hne] at hr
    have hdrop : (s ++ ['%']).dropLast = s := List.dropLast_concat
    have hflt : goParseFloat s = q := by simp [goParseFloat, hq]
    rw [hdrop, hflt] at hr
    have h4lt : 4 < fields.length := get?_some_lt hf4
    have hr2 : ([Value.vNat ts, Value.vStr host]
        ++ fields.set 4 (Value.vNum (q / 100))) = r := Option.some.inj hr
    rw [hri]
    show r.get? 6 = some (Value.vNum (q / 100))
    rw [← hr2]
    have e1 : (6 : Nat) = ([Value.vNat ts, Value.vStr host] : List Value).length + 4 := rfl
    rw [e1, get?_append_offset]
    rw [List.get?_set_eq_of_lt _ h4lt]

theorem disk_in_use_percent_witness :
    ∃ mres, mapDiskMetrics ("system.disk").data ("h").data 7
        [[ Value.vStr ("sda").data, Value.vNum 1, Value.vNum 2, Value.vNum 3,
           Value.vStr ("42%").data, Value.vStr ("/").data],
         [ Value.vStr ("sdb").data, Value.vNum 1, Value.vNum 2, Value.vNum 3,
           Value.vStr ("0%").data, Value.vStr ("/x").data]] = some mres ∧
      mres.points.length = 2 ∧
      (mres.points.get? 0).bind (fun r => r.get? 6)
        = some (Value.vNum ((42 : ℚ) / 100)) ∧
      (mres.points.get? 1).bind (fun r => r.get? 6)
        = some (Value.vNum ((0 : ℚ) / 100)) := by
  obtain ⟨mres, hm, hlen, hspec⟩ := disk_in_use_percent ("system.disk").data ("h").data 7
    [[ Value.vStr ("sda").data, Value.vNum 1, Value.vNum 2, Value.vNum 3,
       Value.vStr ("42%").data, Value.vStr ("/").data],
     [ Value.vStr ("sdb").data, Value.vNum 1, Value.vNum 2, Value.vNum 3,
       Value.vStr ("0%").data, Value.vStr ("/x").data]]
    (by
      intro fields hf
      simp only [List.mem_cons, List.not_mem_nil, or_false] at hf
      rcases hf with h | h
      · exact ⟨("42").data, by rw [h]; decide⟩
      · exact ⟨("0").data, by rw [h]; decide⟩)
  refine ⟨mres, hm, by rw [hlen]; rfl, ?_, ?_⟩
  · exact hspec 0 _ ("42").data 42 rfl (by decide) (by decide)
  · exact hspec 1 _ ("0").data 0 rfl (by decide) (by decide)

/-- C9: a numeric field that fails to parse is replaced by zero and mapping
continues.  In mapIOMetrics every device with all raw fields present as
strings yields a row (the batch is never aborted by a parse failure) and an
unparseable field contributes the value 0; in mapProcesses an unparseable
cpu percentage becomes a 0 bucket value and the process is still aggregated
and emitted. -/
theorem parse_failure_zero_fallback :
    (∀ (host : Str) (ts : Nat) (data : List (Str × List (Str × Value))),
      (∀ dv ∈ data, ∀ n ∈ ioMetrics, ∃ s : Str,
        lookupA dv.2 ((lookupA ioMetricMapping n).getD []) = some (Value.vStr s)) →
      ∃ mres, mapIOMetrics host ts data = some mres ∧
        mres.points.length = data.length ∧
        ∀ (i j : Nat) (dv : Str × List (Str × Value)) (n s : Str),
          data.get? i = some dv → ioMetrics.get? j = some n →
          lookupA dv.2 ((lookupA ioMetricMapping n).getD []) = some (Value.vStr s) →
          parseFloatQ s = none →
          (mres.points.get? i).bind (fun r => r.get? (3 + j))
            = some (Value.vNum 0)) ∧
    (∀ (ts : Nat) (host : Str) (p : ProcInput),
      parseFloatQ p.pctCpu = none →
      ∃ b : ProcBucket,
        [p].foldl procStep [] = [(procKey p, b)] ∧ b.pctCpu = 0 ∧
        (mapProcesses 0 ts host [p]).points = [renderBucket ts host b]) := by
  constructor
  · intro host ts data hshape
    have hall : ∀ dv ∈ data, ∃ r,
        (do
          let values ← ioMetrics.mapM (fun n =>
            match lookupA dv.2 ((lookupA ioMetricMapping n).getD []) with
            | some (Value.vStr s) => some (Value.vNum (goParseFloat s))
            | _ => none)
          some ([Value.vNat ts, Value.vStr host, Value.vStr dv.1] ++ values))
          = some r := by
      intro dv hdv
      obtain ⟨values, hv, _, _⟩ := mapM_option_spec
        (fun n =>
          match lookupA dv.2 ((lookupA ioMetricMapping n).getD []) with
          | some (Value.vStr s) => some (Value.vNum (goParseFloat s))
          | _ => none) ioMetrics
        (by
          intro n hn
          obtain ⟨s, hs⟩ := hshape dv hdv n hn
          exact ⟨Value.vNum (goParseFloat s), by simp only [hs]⟩)
      exact ⟨_, by rw [hv]; rfl⟩
    obtain ⟨pts, hpts, hlen, hspec⟩ := mapM_option_spec _ data hall
    refine ⟨{ name := "system.io".data,
              columns := [timeS, hostnameS, "device".data] ++ ioMetrics,
              points := pts }, ?_, hlen, ?_⟩
    · unfold mapIOMetrics
      rw [hpts]
      rfl
    · intro i j dv n s hdi hjn hs hbad
      have hdvmem : dv ∈ data := List.get?_mem hdi
      obtain ⟨r, hr, hri⟩ := hspec i dv hdi
      obtain ⟨values, hv, hvlen, hvspec⟩ := mapM_option_spec
        (fun n =>
          match lookupA dv.2 ((lookupA ioMetricMapping n).getD []) with
          | some (Value.vStr s) => some (Value.vNum (goParseFloat s))
          | _ => none) ioMetrics
        (by
          intro n hn
          obtain ⟨s, hs⟩ := hshape dv hdvmem n hn
          exact ⟨Value.vNum (goParseFloat s), by simp only [hs]⟩)
      rw [hv] at hr
      have hr2 : ([Value.vNat ts, Value.vStr host, Value.vStr dv.1] ++ values) = r :=
        Option.some.inj hr
      obtain ⟨b, hb, hbj⟩ := hvspec j n hjn
      rw [hs] at hb
      have hb2 : Value.vNum (goParseFloat s) = b := Option.some.inj hb
      have hzero : goParseFloat s = 0 := by simp [goParseFloat, hbad]
      rw [hri]
      show r.get? (3 + j) = some (Value.vNum 0)
      rw [← hr2]
      have e1 : 3 + j = ([Value.vNat ts, Value.vStr host, Value.vStr dv.1]
          : List Value).length + j := by simp
      rw [e1, get?_append_offset, hbj, ← hb2, hzero]
  · intro ts host p hbad
    refine ⟨{ user := p.user, pid := goParseInt p.pid,
              pctCpu := goParseFloat p.pctCpu, pctMem := goParseFloat p.pctMem,
              vsz := goParseInt p.vsz, rss := goParseInt p.rss,
              family := procFamily p, command := p.command, psCount := 1 },
            ?_, ?_, ?_⟩
    · show procStep [] p = _
      simp [procStep, insertA, lookupA]
    · simp [goParseFloat, hbad]
    · have hcpu : goParseFloat p.pctCpu = 0 := by simp [goParseFloat, hbad]
      simp [mapProcesses, procStep, insertA, lookupA, hcpu]

theorem parse_failure_zero_fallback_witness :
    (∃ mres, mapIOMetrics ("h").data 7 [(("sda").data, ioFieldsW)] = some mres ∧
      mres.points.length = [(("sda").data, ioFieldsW)].length ∧
      ∀ (i j : Nat) (dv : Str × List (Str × Value)) (n s : Str),
        [(("sda").data, ioFieldsW)].get? i = some dv → ioMetrics.get? j = some n →
        lookupA dv.2 ((lookupA ioMetricMapping n).getD []) = some (Value.vStr s) →
        parseFloatQ s = none →
        (mres.points.get? i).bind (fun r => r.get? (3 + j))
          = some (Value.vNum 0)) ∧
    (∃ b : ProcBucket,
      [procW].foldl procStep [] = [(procKey procW, b)] ∧ b.pctCpu = 0 ∧
      (mapProcesses 0 7 ("h").data [procW]).points
        = [renderBucket 7 ("h").data b]) :=
  ⟨parse_failure_zero_fallback.1 ("h").data 7 [(("sda").data, ioFieldsW)]
    (by
      intro dv hdv n hn
      fin_cases hdv
      fin_cases hn <;> first
        | exact ⟨("abc").data, by decide⟩
        | exact ⟨("1").data, by decide⟩),
   parse_failure_zero_fallback.2 7 ("h").data procW (by decide)⟩

lemma lookupA_map_overwrite_ne {α : Type} (l : List (Str × α)) (k k' : Str)
    (v : α) (h : k' ≠ k) :
    lookupA (l.map (fun kv => if kv.1 = k then (k, v) else kv)) k'
      = lookupA l k' := by
  induction l with
  | nil => rfl
  | cons x xs ih =>
    by_cases hx : x.1 = k
    · unfold lookupA
      simp only [List.map_cons, if_pos hx, List.find?]
      have h1 : (decide (k = k')) = false := by simp [Ne.symm h]
      have h2 : (decide (x.1 = k')) = false := by
        rw [hx]
        simp [Ne.symm h]
      rw [h1, h2]
      exact ih
    · unfold lookupA
      simp only [List.map_cons, if_neg hx, List.find?]
      cases hd : decide (x.1 = k') with
      | true => rfl
      | false => exact ih

lemma lookupA_map_overwrite_self {α : Type} (l : List (Str × α)) (k : Str)
    (v : α) (hany : l.any (fun kv => kv.1 = k)) :
    lookupA (l.map (fun kv => if kv.1 = k then (k, v) else kv)) k = some v := by
  induction l with
  | nil => simp at hany
  | cons x xs ih =>
    by_cases hx : x.1 = k
    · unfold lookupA
      simp [List.find?, hx]
    · have hxs : xs.any (fun kv => kv.1 = k) := by
        rw [List.any_cons] at hany
        have hfx : (decide (x.1 = k)) = false := by simp [hx]
        rw [hfx, Bool.false_or] at hany
        exact hany
      unfold lookupA
      simp only [List.map_cons, if_neg hx, List.find?]
      rw [show (decide (x.1 = k)) = false by simp [hx]]
      exact ih hxs

lemma lookupA_append_one {α : Type} (l : List (Str × α)) (k k' : Str) (v : α) :
    lookupA (l ++ [(k, v)]) k'
      = if k' = k then (lookupA l k').orElse (fun _ => some v)
        else lookupA l k' := by
  unfold lookupA
  rw [List.find?_append]
  by_cases h : k' = k
  · rw [if_pos h]
    cases hf : l.find? (fun kv => kv.1 = k') with
    | some kv => rfl
    | none =>
      simp only [Option.none_or]
      have : (decide ((k, v).1 = k')) = true := by simp [h]
      simp [List.find?, this]
  · rw [if_neg h]
    cases hf : l.find? (fun kv => kv.1 = k') with
    | some kv => rfl
    | none =>
      simp only [Option.none_or]
      have : (decide ((k, v).1 = k')) = false := by simp [Ne.symm h]
      simp [List.find?, this]

lemma lookupA_insertA_self {α : Type} (l : List (Str × α)) (k : Str) (v : α) :
    lookupA (insertA l k v) k = some v := by
  unfold insertA
  by_cases h : l.any (fun kv => kv.1 = k)
  · rw [if_pos h]
    exact lookupA_map_overwrite_self l k v h
  · rw [if_neg h]
    rw [lookupA_append_one, if_pos rfl]
    have hnone : lookupA l k = none := by
      unfold lookupA
      rw [List.find?_eq_none.mpr]
      · rfl
      · intro x hx
        intro hp
        exact h (List.any_eq_true.mpr ⟨x, hx, hp⟩)
    rw [hnone]
    rfl

lemma lookupA_insertA_ne {α : Type} (l : List (Str × α)) (k k' : Str) (v : α)
    (h : k' ≠ k) : lookupA (insertA l k v) k' = lookupA l k' := by
  unfold insertA
  by_cases ha : l.any (fun kv => kv.1 = k)
  · rw [if_pos ha]
    exact lookupA_map_overwrite_ne l k k' v h
  · rw [if_neg ha]
    rw [lookupA_append_one, if_neg h]

lemma renderBucket_inj (ts : Nat) (host : Str) {b b' : ProcBucket}
    (h : renderBucket ts host b = renderBucket ts host b') : b = b' := by
  cases b
  cases b'
  simp only [renderBucket, List.cons.injEq, Value.vStr.injEq, Value.vInt.injEq,
    Value.vNum.injEq, Nat.cast_inj, and_true] at h
  obtain ⟨-, -, h1, h2, h3, h4, h5, h6, h7, h8, h9⟩ := h
  simp_all

lemma procStep_kernel_acc (procs : List ProcInput)
    (hall : ∀ p ∈ procs, p.command.head? = some '[') :
    ∀ b0 : ProcBucket, ∃ b : ProcBucket,
      procs.foldl procStep [(("kernel").data, b0)] = [(("kernel").data, b)] ∧
      b.psCount = b0.psCount + procs.length := by
  induction procs with
  | nil => intro b0; exact ⟨b0, rfl, by simp⟩
  | cons p ps ih =>
    intro b0
    have hk : procIsKernel p = true := by
      simp [procIsKernel, hall p (List.mem_cons_self _ _)]
    have hkey : procKey p = ("kernel").data := by simp [procKey, hk]
    have hstep : procStep [(("kernel").data, b0)] p
        = [(("kernel").data,
            { user := p.user, pid := goParseInt p.pid,
              pctCpu := goParseFloat p.pctCpu, pctMem := goParseFloat p.pctMem,
              vsz := goParseInt p.vsz, rss := goParseInt p.rss,
              family := procFamily p, command := p.command,
              psCount := b0.psCount + 1 })] := by
      unfold procStep
      rw [hkey]
      have hl : lookupA [(("kernel").data, b0)] ("kernel").data = some b0 := by
        unfold lookupA
        simp [List.find?]
      rw [hl]
      unfold insertA
      simp
    obtain ⟨b, hb, hcnt⟩ := ih (fun q hq => hall q (List.mem_cons_of_mem _ hq)) _
    refine ⟨b, ?_, ?_⟩
    · rw [List.foldl_cons, hstep]
      exact hb
    · rw [hcnt]
      simp only [List.length_cons]
      omega

/-- C5: processes whose command starts with a bracket all collapse into the
single "kernel" bucket (one output bucket counting them all, whatever the
rest of the command is), and an aggregated bucket is kept exactly when its
cpu or mem percentage reaches the configured threshold (inclusive or). -/
theorem process_kernel_bucket_and_filter :
    (∀ procs : List ProcInput, procs ≠ [] →
      (∀ p ∈ procs, p.command.head? = some '[') →
      ∃ b : ProcBucket,
        procs.foldl procStep [] = [(("kernel").data, b)] ∧
        b.psCount = procs.length) ∧
    (∀ (processFilter : ℚ) (ts : Nat) (host : Str) (procs : List ProcInput)
       (k : Str) (b : ProcBucket), (k, b) ∈ procs.foldl procStep [] →
      ((processFilter ≤ b.pctCpu ∨ processFilter ≤ b.pctMem) ↔
        renderBucket ts host b ∈ (mapProcesses processFilter ts host procs).points)) := by
  constructor
  · intro procs hne hall
    cases procs with
    | nil => exact absurd rfl hne
    | cons p ps =>
      have hk : procIsKernel p = true := by
        simp [procIsKernel, hall p (List.mem_cons_self _ _)]
      have hkey : procKey p = ("kernel").data := by simp [procKey, hk]
      have hstep : procStep [] p
          = [(("kernel").data,
              { user := p.user, pid := goParseInt p.pid,
                pctCpu := goParseFloat p.pctCpu, pctMem := goParseFloat p.pctMem,
                vsz := goParseInt p.vsz, rss := goParseInt p.rss,
                family := procFamily p, command := p.command,
                psCount := 1 })] := by
        unfold procStep
        rw [hkey]
        rfl
      obtain ⟨b, hb, hcnt⟩ := procStep_kernel_acc ps
        (fun q hq => hall q (List.mem_cons_of_mem _ hq)) _
      refine ⟨b, ?_, ?_⟩
      · rw [List.foldl_cons, hstep]
        exact hb
      · rw [hcnt]
        simp only [List.length_cons]
        omega
  · intro processFilter ts host procs k b hmem
    constructor
    · intro hcond
      have hinf : (k, b) ∈ (procs.foldl procStep []).filter
          (fun kb => processFilter ≤ kb.2.pctCpu ∨ processFilter ≤ kb.2.pctMem
            : Str × ProcBucket → Bool) :=
        List.mem_filter.mpr ⟨hmem, by simpa using hcond⟩
      exact List.mem_map.mpr ⟨(k, b), hinf, rfl⟩
    · intro hrow
      obtain ⟨kb, hkbmem, hkb⟩ := List.mem_map.mp hrow
      have hb2 : kb.2 = b := renderBucket_inj ts host hkb
      have := (List.mem_filter.mp hkbmem).2
      rw [hb2] at this
      simpa using this

theorem process_kernel_bucket_and_filter_witness :
    (∃ b : ProcBucket,
      [procK1, procK2].foldl procStep [] = [(("kernel").data, b)] ∧
      b.psCount = [procK1, procK2].length) ∧
    ((1 ≤ procBucketW.pctCpu ∨ 1 ≤ procBucketW.pctMem) ↔
      renderBucket 7 ("h").data procBucketW
        ∈ (mapProcesses 1 7 ("h").data [procK1]).points) :=
  ⟨process_kernel_bucket_and_filter.1 [procK1, procK2] (by decide) (by decide),
   process_kernel_bucket_and_filter.2 1 7 ("h").data [procK1] ("kernel").data
     procBucketW (by decide)⟩

lemma mapM_option_length {α β : Type} (f : α → Option β) :
    ∀ (l : List α) (l' : List β), l.mapM f = some l' → l'.length = l.length := by
  intro l
  induction l with
  | nil =>
    intro l' h
    cases h
    rfl
  | cons x xs ih =>
    intro l' h
    rw [List.mapM_cons] at h
    cases hx : f x with
    | none => rw [hx] at h; cases h
    | some b =>
      rw [hx] at h
      cases hxs : xs.mapM f with
      | none => rw [hxs] at h; cases h
      | some tl =>
        rw [hxs] at h
        cases h
        simp [ih tl hxs]

lemma mapM_option_mem {α β : Type} (f : α → Option β) :
    ∀ (l : List α) (l' : List β), l.mapM f = some l' →
      ∀ b ∈ l', ∃ a ∈ l, f a = some b := by
  intro l
  induction l with
  | nil =>
    intro l' h
    cases h
    intro b hb
    cases hb
  | cons x xs ih =>
    intro l' h
    rw [List.mapM_cons] at h
    cases hx : f x with
    | none => rw [hx] at h; cases h
    | some b0 =>
      rw [hx] at h
      cases hxs : xs.mapM f with
      | none => rw [hxs] at h; cases h
      | some tl =>
        rw [hxs] at h
        cases h
        intro b hb
        cases hb with
        | head => exact ⟨x, List.mem_cons_self _ _, hx⟩
        | tail _ hb =>
          obtain ⟨a, ha, hfa⟩ := ih tl hxs b hb
          exact ⟨a, List.mem_cons_of_mem _ ha, hfa⟩

lemma tmTagStep_inv (i : Nat) (s : List Str × List (List Value)) (kv : Str × Value)
    (hrows : ∀ r ∈ s.2, r.length = s.1.length) (hnd : s.1.Nodup) :
    (∀ r ∈ (tmTagStep i s kv).2, r.length = (tmTagStep i s kv).1.length) ∧
    (tmTagStep i s kv).1.Nodup := by
  cases hf : s.1.findIdx? (fun c => c = if kv.1 = timeS ∨ kv.1 = valueS
      then '_' :: kv.1 else kv.1) with
  | some j =>
    have hstep : tmTagStep i s kv
        = (s.1, s.2.set i (((s.2.get? i).getD []).set j kv.2)) := by
      simp only [tmTagStep]
      rw [hf]
    rw [hstep]
    refine ⟨?_, hnd⟩
    intro r hr
    change r ∈ s.2.set i (((s.2.get? i).getD []).set j kv.2) at hr
    by_cases hi : i < s.2.length
    · rcases List.mem_or_eq_of_mem_set hr with hmem | heq
      · exact hrows r hmem
      · have hrow : s.2.get? i = some (s.2.get ⟨i, hi⟩) := List.get?_eq_get hi
        subst heq
        rw [List.length_set, hrow, Option.getD_some]
        exact hrows _ (List.get?_mem hrow)
    · rw [List.set_eq_of_length_le (Nat.le_of_not_lt hi)] at hr
      exact hrows r hr
  | none =>
    have hstep : tmTagStep i s kv
        = (s.1 ++ [if kv.1 = timeS ∨ kv.1 = valueS then '_' :: kv.1 else kv.1],
           s.2.enum.map (fun jr =>
             jr.2 ++ [if jr.1 = i then kv.2 else Value.vNull])) := by
      simp only [tmTagStep]
      rw [hf]
    have hknotmem : (if kv.1 = timeS ∨ kv.1 = valueS then '_' :: kv.1 else kv.1)
        ∉ s.1 := by
      intro hmem
      have hall := List.findIdx?_eq_none_iff.mp hf
      have := hall _ hmem
      simp at this
    rw [hstep]
    constructor
    · intro r hr
      change r ∈ s.2.enum.map (fun jr =>
        jr.2 ++ [if jr.1 = i then kv.2 else Value.vNull]) at hr
      obtain ⟨jr, hjrmem, hjr⟩ := List.mem_map.mp hr
      have hjr2 : jr.2 ∈ s.2 := by
        obtain ⟨j0, r0⟩ := jr
        exact List.getElem?_mem (List.mk_mem_enum_iff_getElem?.mp hjrmem)
      rw [← hjr]
      simp only [List.length_append, List.length_cons, List.length_nil]
      rw [hrows jr.2 hjr2]
    · rw [List.nodup_append]
      exact ⟨hnd, List.nodup_singleton _,
        fun a ha hb => hknotmem ((List.mem_singleton.mp hb) ▸ ha)⟩

lemma tmTagFold_inv (i : Nat) (tags : List (Str × Value)) :
    ∀ s : List Str × List (List Value),
      (∀ r ∈ s.2, r.length = s.1.length) → s.1.Nodup →
      (∀ r ∈ (tags.foldl (tmTagStep i) s).2,
        r.length = (tags.foldl (tmTagStep i) s).1.length) ∧
      (tags.foldl (tmTagStep i) s).1.Nodup := by
  induction tags with
  | nil => intro s h1 h2; exact ⟨h1, h2⟩
  | cons kv tl ih =>
    intro s h1 h2
    obtain ⟨h1', h2'⟩ := tmTagStep_inv i s kv h1 h2
    exact ih _ h1' h2'

lemma toMetric_inv (em : ExtraMetric) (host name : Str) :
    rowsMatch (em.ToMetric host name) ∧ (em.ToMetric host name).columns.Nodup := by
  have main : ∀ (l : List (Nat × List (Str × Value)))
      (s : List Str × List (List Value)),
      (∀ r ∈ s.2, r.length = s.1.length) → s.1.Nodup →
      (∀ r ∈ (l.foldl (fun s it => it.2.foldl (tmTagStep it.1) s) s).2,
        r.length = (l.foldl (fun s it => it.2.foldl (tmTagStep it.1) s) s).1.length) ∧
      (l.foldl (fun s it => it.2.foldl (tmTagStep it.1) s) s).1.Nodup := by
    intro l
    induction l with
    | nil => intro s h1 h2; exact ⟨h1, h2⟩
    | cons it tl ih =>
      intro s h1 h2
      obtain ⟨h1', h2'⟩ := tmTagFold_inv it.1 it.2 s h1 h2
      exact ih _ h1' h2'
  have h0 : ∀ r ∈ em.Values.map (fun v =>
      [Value.vNat em.Timestamp, v, Value.vStr host]),
      r.length = ([timeS, valueS, hostnameS] : List Str).length := by
    intro r hr
    obtain ⟨v, _, hv⟩ := List.mem_map.mp hr
    rw [← hv]
    rfl
  have hnd0 : ([timeS, valueS, hostnameS] : List Str).Nodup := by decide
  obtain ⟨h1, h2⟩ := main em.Tags.enum
    ([timeS, valueS, hostnameS],
     em.Values.map (fun v => [Value.vNat em.Timestamp, v, Value.vStr host]))
    h0 hnd0
  exact ⟨h1, h2⟩

lemma applyStatsdTag_inv (kv : Str × Str) (s : List Str × List (List Value))
    (h : ∀ r ∈ s.2, r.length = s.1.length) :
    ∀ r ∈ (applyStatsdTag kv s).2, r.length = (applyStatsdTag kv s).1.length := by
  unfold applyStatsdTag
  by_cases hk : kv.1 = hostnameS
  · rw [if_pos hk]
    intro r hr
    obtain ⟨r0, hr0, hset⟩ := List.mem_map.mp hr
    rw [← hset, List.length_set]
    exact h r0 hr0
  · rw [if_neg hk]
    intro r hr
    obtain ⟨r0, hr0, hset⟩ := List.mem_map.mp hr
    rw [← hset]
    simp only [List.length_append, List.length_cons, List.length_nil]
    rw [h r0 hr0]

lemma statsdTagFold_inv (kvs : List (Str × Str)) :
    ∀ s : List Str × List (List Value),
      (∀ r ∈ s.2, r.length = s.1.length) →
      ∀ r ∈ (kvs.foldl (fun s kv => applyStatsdTag kv s) s).2,
        r.length = (kvs.foldl (fun s kv => applyStatsdTag kv s) s).1.length := by
  induction kvs with
  | nil => intro s h; exact h
  | cons kv tl ih =>
    intro s h
    exact ih _ (applyStatsdTag_inv kv s h)

lemma assembleSeries_inv (h : Str) (m : StatsdMetric) (met : Metric)
    (hass : assembleSeries h m = some met) : rowsMatch met := by
  unfold assembleSeries at hass
  cases hkvs : m.tags.mapM splitColon with
  | none => rw [hkvs] at hass; cases hass
  | some kvs =>
    rw [hkvs] at hass
    have hbase : ∀ r ∈ m.points.map (fun p =>
        [ Value.vNat (goUint64 (p.1 * 1000)), p.2, Value.vStr h,
          Value.vNum m.interval, Value.vStr m.type]),
        r.length = ([timeS, valueS, hostnameS, "metric_interval".data,
          "metric_type".data] : List Str).length := by
      intro r hr
      obtain ⟨p, _, hp⟩ := List.mem_map.mp hr
      rw [← hp]
      rfl
    have hmain := statsdTagFold_inv kvs
      ([timeS, valueS, hostnameS, "metric_interval".data, "metric_type".data],
       m.points.map (fun p =>
        [ Value.vNat (goUint64 (p.1 * 1000)), p.2, Value.vStr h,
          Value.vNum m.interval, Value.vStr m.type])) hbase
    cases hass
    exact hmain

lemma backfill_inv (hf : Str) (met : Metric) (h : rowsMatch met) :
    rowsMatch { met with points := met.points.map (backfillRow hf) } := by
  intro r hr
  obtain ⟨r0, hr0, hb⟩ := List.mem_map.mp hr
  have : r.length = r0.length := by
    rw [← hb]
    unfold backfillRow
    by_cases hc : r0.get? 2 = some (Value.vStr [])
    · rw [if_pos hc, List.length_set]
    · rw [if_neg hc]
  rw [this]
  exact h r0 hr0

lemma mapStatsdLoop_mem (series : List StatsdMetric) :
    ∀ (h : Str) (ms : List Metric) (hfin : Str),
      mapStatsdLoop h series = some (ms, hfin) →
      ∀ met ∈ ms, ∃ h' m, assembleSeries h' m = some met := by
  induction series with
  | nil =>
    intro h ms hfin hl met hmet
    cases hl
    cases hmet
  | cons m rest ih =>
    intro h ms hfin hl met hmet
    simp only [mapStatsdLoop] at hl
    cases hass : assembleSeries (if m.host ≠ [] then m.host else h) m with
    | none => rw [hass] at hl; cases hl
    | some met0 =>
      rw [hass] at hl
      cases hrec : mapStatsdLoop (if m.host ≠ [] then m.host else h) rest with
      | none => rw [hrec] at hl; cases hl
      | some p =>
        rw [hrec] at hl
        cases hl
        cases hmet with
        | head => exact ⟨_, m, hass⟩
        | tail _ hmet => exact ih _ _ _ hrec met hmet

lemma extraFold_mem (host g : Str) (fields : List (Str × ExtraMetric)) :
    ∀ (s s' : GroupAcc), fields.foldlM (extraGroupStep host g) s = some s' →
      ∀ m ∈ s'.metrics,
        m ∈ s.metrics ∨ ∃ em f, m = ExtraMetric.ToMetric em host f := by
  induction fields with
  | nil =>
    intro s s' h m hm
    cases h
    exact Or.inl hm
  | cons fe tl ih =>
    intro s s' h m hm
    rw [List.foldlM_cons] at h
    cases hstep : extraGroupStep host g s fe with
    | none => rw [hstep] at h; cases h
    | some s1 =>
      rw [hstep] at h
      rcases ih s1 s' h m hm with hin | hto
      · unfold extraGroupStep at hstep
        by_cases hlen : fe.2.Values.length > 1
        · rw [if_pos hlen] at hstep
          cases hstep
          rcases List.mem_append.mp hin with h1 | h1
          · exact Or.inl h1
          · exact Or.inr ⟨fe.2, g ++ '.' :: fe.1, (List.mem_singleton.mp h1)⟩
        · rw [if_neg hlen] at hstep
          cases hv0 : fe.2.Values.head? with
          | none => rw [hv0] at hstep; cases hstep
          | some v0 =>
            rw [hv0] at hstep
            cases ht0 : fe.2.Tags.head? with
            | none => rw [ht0] at hstep; cases hstep
            | some t0 =>
              rw [ht0] at hstep
              cases hstep
              exact Or.inl hin
      · exact Or.inr hto

lemma extraGroupOut_mem (host g : Str) (fields : List (Str × ExtraMetric))
    (out : List Metric) (h : extraGroupOut host g fields = some out) :
    ∀ m ∈ out, (∃ em f, m = ExtraMetric.ToMetric em host f) ∨
      (∃ ts gv gt, m = NewMetricGroup host g ts gv gt) := by
  unfold extraGroupOut at h
  cases hfold : fields.foldlM (extraGroupStep host g) ⟨[], [], [], 0⟩ with
  | none => rw [hfold] at h; cases h
  | some s =>
    rw [hfold] at h
    change (if s.groupValues ≠ [] then
        some (s.metrics
          ++ [NewMetricGroup host g s.groupTimestamp s.groupValues s.groupTags])
      else some s.metrics) = some out at h
    intro m hm
    by_cases hgv : s.groupValues ≠ []
    · rw [if_pos hgv] at h
      cases h
      rcases List.mem_append.mp hm with h1 | h1
      · rcases extraFold_mem host g fields _ s hfold m h1 with h2 | h2
        · cases h2
        · exact Or.inl h2
      · exact Or.inr ⟨s.groupTimestamp, s.groupValues, s.groupTags,
          List.mem_singleton.mp h1⟩
    · rw [if_neg hgv] at h
      cases h
      rcases extraFold_mem host g fields _ s hfold m hm with h2 | h2
      · cases h2
      · exact Or.inl h2

lemma mapExtraMetrics_mem (host : Str) (data : List ExtraInput)
    (ms : List Metric) (h : mapExtraMetrics host data = some ms) :
    ∀ m ∈ ms, (∃ em f, m = ExtraMetric.ToMetric em host f) ∨
      (∃ g ts gv gt, m = NewMetricGroup host g ts gv gt) := by
  unfold mapExtraMetrics at h
  cases hb : buildExtra data with
  | none => rw [hb] at h; cases h
  | some groups =>
    rw [hb] at h
    have main : ∀ (gl : List (Str × List (Str × ExtraMetric)))
        (ms0 ms' : List Metric),
        gl.foldlM (fun ms ge => do
          let out ← extraGroupOut host ge.1 ge.2
          some (ms ++ out)) ms0 = some ms' →
        ∀ m ∈ ms', m ∈ ms0 ∨ (∃ em f, m = ExtraMetric.ToMetric em host f) ∨
          (∃ g ts gv gt, m = NewMetricGroup host g ts gv gt) := by
      intro gl
      induction gl with
      | nil =>
        intro ms0 ms' hh m hm
        cases hh
        exact Or.inl hm
      | cons ge tl ih =>
        intro ms0 ms' hh m hm
        rw [List.foldlM_cons] at hh
        cases hout : extraGroupOut host ge.1 ge.2 with
        | none => rw [hout] at hh; cases hh
        | some out =>
          rw [hout] at hh
          rcases ih _ _ hh m hm with hin | hrest
          · rcases List.mem_append.mp hin with h1 | h1
            · exact Or.inl h1
            · rcases extraGroupOut_mem host ge.1 ge.2 out hout m h1 with h2 | h2
              · exact Or.inr (Or.inl h2)
              · obtain ⟨ts, gv, gt, hq⟩ := h2
                exact Or.inr (Or.inr ⟨ge.1, ts, gv, gt, hq⟩)
          · exact Or.inr hrest
    intro m hm
    rcases main groups [] ms h m hm with h1 | h1
    · cases h1
    · exact h1

/-- C6 fails as stated: an extra-metric tag named like its own field makes
NewMetricGroup emit the same column name twice, so a mapper-produced record
can carry duplicate columns. -/
theorem duplicate_columns_counterexample :
    ∃ m ∈ (mapExtraMetrics ("h").data
      [{ name := ("g.f").data, tsSec := 1, value := Value.vNum 5,
         tags := [(( "f").data, Value.vStr ("x").data)] }]).getD [],
      ¬ m.columns.Nodup := by decide

/-- C6 (amended): every row of every record produced by the mappers (under
the documented input shapes) has exactly one value per column; the narrow
ExtraMetric.ToMetric records never carry duplicate column names, but the
NewMetricGroup wide rows can, when distinct incoming keys render to the same
column name. -/
theorem record_row_column_alignment :
    (∀ (host name : Str) (ts : Nat) (values tags : List (Str × Value)),
      rowsMatch (NewMetricGroup host name ts values tags)) ∧
    (∀ (em : ExtraMetric) (host name : Str),
      rowsMatch (em.ToMetric host name) ∧
      (em.ToMetric host name).columns.Nodup) ∧
    (∀ (series : List StatsdMetric) (ms : List Metric),
      mapStatsd series = some ms → ∀ m ∈ ms, rowsMatch m) ∧
    (∀ (name host : Str) (ts : Nat) (data : List (List Value)) (m : Metric),
      (∀ f ∈ data, f.length = 6) → mapDiskMetrics name host ts data = some m →
      rowsMatch m) ∧
    (∀ (host : Str) (ts : Nat) (data : List (Str × List (Str × Value)))
       (m : Metric), mapIOMetrics host ts data = some m → rowsMatch m) ∧
    (∀ (processFilter : ℚ) (ts : Nat) (host : Str) (procs : List ProcInput),
      rowsMatch (mapProcesses processFilter ts host procs)) ∧
    (∀ (host : Str) (data : List ExtraInput) (ms : List Metric),
      mapExtraMetrics host data = some ms → ∀ m ∈ ms, rowsMatch m) := by
  have hnmg : ∀ (host name : Str) (ts : Nat) (values tags : List (Str × Value)),
      rowsMatch (NewMetricGroup host name ts values tags) := by
    intro host name ts values tags
    rw [newMetricGroup_eq]
    intro r hr
    rw [List.mem_singleton.mp hr]
    simp
  refine ⟨hnmg, fun em host name => toMetric_inv em host name, ?_, ?_, ?_, ?_, ?_⟩
  · intro series ms hmap m hm
    unfold mapStatsd at hmap
    cases hloop : mapStatsdLoop [] series with
    | none => rw [hloop] at hmap; cases hmap
    | some p =>
      rw [hloop] at hmap
      cases hmap
      obtain ⟨met0, hmet0, hback⟩ := List.mem_map.mp hm
      obtain ⟨h', m', hass⟩ := mapStatsdLoop_mem series [] p.1 p.2
        (by rw [hloop]) met0 hmet0
      rw [← hback]
      exact backfill_inv p.2 met0 (assembleSeries_inv h' m' met0 hass)
  · intro name host ts data m hshape hmap
    unfold mapDiskMetrics at hmap
    cases hpts : data.mapM (fun fields =>
      match fields.get? 4 with
      | some (Value.vStr pct) =>
        if pct = [] then none
        else
          some ([Value.vNat ts, Value.vStr host] ++
            fields.set 4 (Value.vNum (goParseFloat pct.dropLast / 100)))
      | _ => none) with
    | none => rw [hpts] at hmap; cases hmap
    | some pts =>
      rw [hpts] at hmap
      cases hmap
      intro r hr
      obtain ⟨fields, hfmem, hf⟩ := mapM_option_mem _ data pts hpts r hr
      cases hget : fields.get? 4 with
      | none => simp only [hget] at hf; cases hf
      | some v =>
        cases v with
        | vStr pct =>
          simp only [hget] at hf
          by_cases hpct : pct = []
          · rw [if_pos hpct] at hf; cases hf
          · rw [if_neg hpct] at hf
            have := Option.some.inj hf
            rw [← this]
            simp only [List.length_append, List.length_cons, List.length_nil,
              List.length_set]
            rw [hshape fields hfmem]
            rfl
        | vNum q => simp only [hget] at hf; cases hf
        | vNat n => simp only [hget] at hf; cases hf
        | vInt n => simp only [hget] at hf; cases hf
        | vNull => simp only [hget] at hf; cases hf
        | vStrList l => simp only [hget] at hf; cases hf
  · intro host ts data m hmap
    unfold mapIOMetrics at hmap
    cases hpts : data.mapM (fun dev => do
      let values ← ioMetrics.mapM (fun n =>
        match lookupA dev.2 ((lookupA ioMetricMapping n).getD []) with
        | some (Value.vStr s) => some (Value.vNum (goParseFloat s))
        | _ => none)
      some ([Value.vNat ts, Value.vStr host, Value.vStr dev.1] ++ values)) with
    | none => rw [hpts] at hmap; cases hmap
    | some pts =>
      rw [hpts] at hmap
      cases hmap
      intro r hr
      obtain ⟨dev, _, hf⟩ := mapM_option_mem _ data pts hpts r hr
      cases hvals : ioMetrics.mapM (fun n =>
        match lookupA dev.2 ((lookupA ioMetricMapping n).getD []) with
        | some (Value.vStr s) => some (Value.vNum (goParseFloat s))
        | _ => none) with
      | none => rw [hvals] at hf; cases hf
      | some values =>
        rw [hvals] at hf
        have hr2 : ([Value.vNat ts, Value.vStr host, Value.vStr dev.1]
            ++ values) = r := Option.some.inj hf
        rw [← hr2]
        simp only [List.length_append, List.length_cons, List.length_nil]
        rw [mapM_option_length _ ioMetrics values hvals]
  · intro processFilter ts host procs
    intro r hr
    obtain ⟨kb, _, hkb⟩ := List.mem_map.mp hr
    rw [← hkb]
    rfl
  · intro host data ms hmap m hm
    rcases mapExtraMetrics_mem host data ms hmap m hm with ⟨em, f, hq⟩ | ⟨g, ts, gv, gt, hq⟩
    · rw [hq]
      exact (toMetric_inv em host f).1
    · rw [hq]
      exact hnmg host g ts gv gt

theorem record_row_column_alignment_witness :
    rowsMatch (NewMetricGroup ("h").data ("m").data 5
      [(( "a").data, Value.vNum 1)] [(( "b").data, Value.vStr ("x").data)]) ∧
    (∃ ms, mapStatsd [statsdW] = some ms ∧ ∀ m ∈ ms, rowsMatch m) ∧
    (∃ m, mapDiskMetrics ("d").data ("h").data 7 [diskRowW] = some m ∧
      rowsMatch m) ∧
    (∃ m, mapIOMetrics ("h").data 7 [(("sda").data, ioFieldsW)] = some m ∧
      rowsMatch m) ∧
    rowsMatch (mapProcesses 1 7 ("h").data [procK1]) ∧
    (∃ ms, mapExtraMetrics ("h").data [extraW] = some ms ∧
      ∀ m ∈ ms, rowsMatch m) := by
  refine ⟨record_row_column_alignment.1 ("h").data ("m").data 5
      [(( "a").data, Value.vNum 1)] [(( "b").data, Value.vStr ("x").data)],
    ?_, ?_, ?_,
    record_row_column_alignment.2.2.2.2.2.1 1 7 ("h").data [procK1], ?_⟩
  · obtain ⟨ms, hms⟩ : ∃ ms, mapStatsd [statsdW] = some ms := ⟨_, rfl⟩
    exact ⟨ms, hms, record_row_column_alignment.2.2.1 [statsdW] ms hms⟩
  · obtain ⟨m, hm⟩ : ∃ m, mapDiskMetrics ("d").data ("h").data 7 [diskRowW]
        = some m := ⟨_, rfl⟩
    exact ⟨m, hm, record_row_column_alignment.2.2.2.1 ("d").data ("h").data 7
      [diskRowW] m (by decide) hm⟩
  · obtain ⟨m, hm⟩ : ∃ m, mapIOMetrics ("h").data 7 [(("sda").data, ioFieldsW)]
        = some m := ⟨_, rfl⟩
    exact ⟨m, hm, record_row_column_alignment.2.2.2.2.1 ("h").data 7
      [(("sda").data, ioFieldsW)] m hm⟩
  · obtain ⟨ms, hms⟩ : ∃ ms, mapExtraMetrics ("h").data [extraW] = some ms :=
      ⟨_, rfl⟩
    exact ⟨ms, hms, record_row_column_alignment.2.2.2.2.2.2 ("h").data [extraW]
      ms hms⟩

lemma statsdHost_acc (kvs : List (Str × Str)) :
    ∀ a : Option Str,
      kvs.foldl (fun acc kv => if kv.1 = hostnameS then some kv.2 else acc) a
        = match kvs.foldl
            (fun acc kv => if kv.1 = hostnameS then some kv.2 else acc) none with
          | some v => some v
          | none => a := by
  induction kvs with
  | nil => intro a; rfl
  | cons kv tl ih =>
    intro a
    by_cases h : kv.1 = hostnameS
    · have h1 : List.foldl (fun acc kv => if kv.1 = hostnameS then some kv.2 else acc)
          a (kv :: tl) = List.foldl
            (fun acc kv => if kv.1 = hostnameS then some kv.2 else acc)
            (some kv.2) tl := by simp [h]
      have h2 : List.foldl (fun acc kv => if kv.1 = hostnameS then some kv.2 else acc)
          none (kv :: tl) = List.foldl
            (fun acc kv => if kv.1 = hostnameS then some kv.2 else acc)
            (some kv.2) tl := by simp [h]
      rw [h1, h2, ih (some kv.2)]
      cases tl.foldl (fun acc kv => if kv.1 = hostnameS then some kv.2 else acc) none
        <;> rfl
    · have h1 : List.foldl (fun acc kv => if kv.1 = hostnameS then some kv.2 else acc)
          a (kv :: tl) = List.foldl
            (fun acc kv => if kv.1 = hostnameS then some kv.2 else acc) a tl := by
        simp [h]
      have h2 : List.foldl (fun acc kv => if kv.1 = hostnameS then some kv.2 else acc)
          none (kv :: tl) = List.foldl
            (fun acc kv => if kv.1 = hostnameS then some kv.2 else acc) none tl := by
        simp [h]
      rw [h1, h2, ih a]

lemma statsdHost_str (kvs : List (Str × Str)) :
    ∀ cur : Str,
      kvs.foldl (fun c kv => if kv.1 = hostnameS then kv.2 else c) cur
        = match kvs.foldl
            (fun acc kv => if kv.1 = hostnameS then some kv.2 else acc) none with
          | some v => v
          | none => cur := by
  induction kvs with
  | nil => intro cur; rfl
  | cons kv tl ih =>
    intro cur
    by_cases h : kv.1 = hostnameS
    · have h1 : List.foldl (fun c kv => if kv.1 = hostnameS then kv.2 else c)
          cur (kv :: tl) = List.foldl
            (fun c kv => if kv.1 = hostnameS then kv.2 else c) kv.2 tl := by simp [h]
      have h2 : List.foldl (fun acc kv => if kv.1 = hostnameS then some kv.2 else acc)
          none (kv :: tl) = List.foldl
            (fun acc kv => if kv.1 = hostnameS then some kv.2 else acc)
            (some kv.2) tl := by simp [h]
      rw [h1, h2, ih kv.2, statsdHost_acc tl (some kv.2)]
      cases tl.foldl (fun acc kv => if kv.1 = hostnameS then some kv.2 else acc) none
        <;> rfl
    · have h1 : List.foldl (fun c kv => if kv.1 = hostnameS then kv.2 else c)
          cur (kv :: tl) = List.foldl
            (fun c kv => if kv.1 = hostnameS then kv.2 else c) cur tl := by simp [h]
      have h2 : List.foldl (fun acc kv => if kv.1 = hostnameS then some kv.2 else acc)
          none (kv :: tl) = List.foldl
            (fun acc kv => if kv.1 = hostnameS then some kv.2 else acc) none tl := by
        simp [h]
      rw [h1, h2, ih cur]

lemma seriesTagHost_kvs (tags : List Str) (kvs : List (Str × Str))
    (h : tags.mapM splitColon = some kvs) :
    ∀ acc : Option Str,
      tags.foldl (fun acc t =>
        match splitColon t with
        | some kv => if kv.1 = hostnameS then some kv.2 else acc
        | none => acc) acc
      = kvs.foldl (fun acc kv => if kv.1 = hostnameS then some kv.2 else acc) acc := by
  induction tags generalizing kvs with
  | nil =>
    intro acc
    cases h
    rfl
  | cons t ts ih =>
    rw [List.mapM_cons] at h
    cases hsp : splitColon t with
    | none => rw [hsp] at h; cases h
    | some kv0 =>
      rw [hsp] at h
      cases hts : ts.mapM splitColon with
      | none => rw [hts] at h; cases h
      | some tl =>
        rw [hts] at h
        cases h
        intro acc
        simp only [List.foldl_cons, hsp]
        exact ih tl hts _

lemma statsdTagFold_host (kvs : List (Str × Str)) :
    ∀ (s : List Str × List (List Value)) (cur : Str),
      (∀ r ∈ s.2, r.get? 2 = some (Value.vStr cur) ∧ 2 < r.length) →
      ∀ r ∈ (kvs.foldl (fun s kv => applyStatsdTag kv s) s).2,
        r.get? 2 = some (Value.vStr (kvs.foldl
          (fun c kv => if kv.1 = hostnameS then kv.2 else c) cur)) ∧
        2 < r.length := by
  induction kvs with
  | nil => intro s cur h; exact h
  | cons kv tl ih =>
    intro s cur h
    simp only [List.foldl_cons]
    by_cases hk : kv.1 = hostnameS
    · have hstep : applyStatsdTag kv s
          = (s.1, s.2.map (fun r => r.set 2 (Value.vStr kv.2))) := by
        unfold applyStatsdTag
        rw [if_pos hk]
      rw [hstep, if_pos hk]
      refine ih _ kv.2 ?_
      intro r hr
      obtain ⟨r0, hr0, hset⟩ := List.mem_map.mp hr
      obtain ⟨-, hlen⟩ := h r0 hr0
      constructor
      · rw [← hset]
        exact List.get?_set_eq_of_lt _ hlen
      · rw [← hset, List.length_set]
        exact hlen
    · have hstep : applyStatsdTag kv s
          = (s.1 ++ [if kv.1 = timeS ∨ kv.1 = valueS then '_' :: kv.1 else kv.1],
             s.2.map (fun r => r ++ [Value.vStr kv.2])) := by
        unfold applyStatsdTag
        rw [if_neg hk]
      rw [hstep, if_neg hk]
      refine ih _ cur ?_
      intro r hr
      obtain ⟨r0, hr0, happ⟩ := List.mem_map.mp hr
      obtain ⟨hget, hlen⟩ := h r0 hr0
      constructor
      · rw [← happ, List.get?_append hlen]
        exact hget
      · rw [← happ, List.length_append]
        omega

lemma statsdTagFold_count (kvs : List (Str × Str)) :
    ∀ s : List Str × List (List Value),
      (kvs.foldl (fun s kv => applyStatsdTag kv s) s).2.length = s.2.length := by
  induction kvs with
  | nil => intro s; rfl
  | cons kv tl ih =>
    intro s
    simp only [List.foldl_cons]
    rw [ih]
    unfold applyStatsdTag
    by_cases hk : kv.1 = hostnameS
    · rw [if_pos hk]; simp
    · rw [if_neg hk]; simp

lemma assembleSeries_host (h : Str) (m : StatsdMetric) (met : Metric)
    (hass : assembleSeries h m = some met) :
    met.points.length = m.points.length ∧
    ∀ r ∈ met.points,
      r.get? 2 = some (Value.vStr (match seriesTagHost m with
        | some v => v
        | none => h)) ∧ 2 < r.length := by
  unfold assembleSeries at hass
  cases hkvs : m.tags.mapM splitColon with
  | none => rw [hkvs] at hass; cases hass
  | some kvs =>
    rw [hkvs] at hass
    have hbase : ∀ r ∈ m.points.map (fun p =>
        [ Value.vNat (goUint64 (p.1 * 1000)), p.2, Value.vStr h,
          Value.vNum m.interval, Value.vStr m.type]),
        r.get? 2 = some (Value.vStr h) ∧ 2 < r.length := by
      intro r hr
      obtain ⟨p, _, hp⟩ := List.mem_map.mp hr
      rw [← hp]
      exact ⟨rfl, by simp⟩
    have hhost := statsdTagFold_host kvs
      ([timeS, valueS, hostnameS, "metric_interval".data, "metric_type".data],
       m.points.map (fun p =>
        [ Value.vNat (goUint64 (p.1 * 1000)), p.2, Value.vStr h,
          Value.vNum m.interval, Value.vStr m.type])) h hbase
    have hcount := statsdTagFold_count kvs
      ([timeS, valueS, hostnameS, "metric_interval".data, "metric_type".data],
       m.points.map (fun p =>
        [ Value.vNat (goUint64 (p.1 * 1000)), p.2, Value.vStr h,
          Value.vNum m.interval, Value.vStr m.type]))
    cases hass
    constructor
    · rw [hcount]
      simp
    · intro r hr
      have := hhost r hr
      rw [statsdHost_str kvs h] at this
      have hsth : seriesTagHost m
          = kvs.foldl (fun acc kv =>
              if kv.1 = hostnameS then some kv.2 else acc) none := by
        unfold seriesTagHost
        exact seriesTagHost_kvs m.tags kvs hkvs none
      rw [hsth]
      exact this

lemma mapStatsdLoop_spec (series : List StatsdMetric) :
    ∀ (h : Str) (ms : List Metric) (hf : Str),
      mapStatsdLoop h series = some (ms, hf) →
      hf = stickyHost h series ∧ ms.length = series.length ∧
      ∀ i, i < series.length →
        ∃ m met, series.get? i = some m ∧ ms.get? i = some met ∧
          assembleSeries (stickyHost h (series.take (i + 1))) m = some met := by
  induction series with
  | nil =>
    intro h ms hf hl
    cases hl
    exact ⟨rfl, rfl, fun i hi => absurd hi (by simp)⟩
  | cons m rest ih =>
    intro h ms hf hl
    simp only [mapStatsdLoop] at hl
    cases hass : assembleSeries (if m.host ≠ [] then m.host else h) m with
    | none => rw [hass] at hl; cases hl
    | some met0 =>
      rw [hass] at hl
      cases hrec : mapStatsdLoop (if m.host ≠ [] then m.host else h) rest with
      | none => rw [hrec] at hl; cases hl
      | some p =>
        rw [hrec] at hl
        cases hl
        obtain ⟨hf', hlen, hspec⟩ := ih _ _ _ hrec
        have hsticky : stickyHost h (m :: rest)
            = stickyHost (if m.host ≠ [] then m.host else h) rest := rfl
        refine ⟨by rw [hsticky]; exact hf', by simp [hlen], ?_⟩
        intro i hi
        cases i with
        | zero =>
          refine ⟨m, met0, rfl, rfl, ?_⟩
          have : stickyHost h (List.take 1 (m :: rest))
              = (if m.host ≠ [] then m.host else h) := rfl
          rw [this]
          exact hass
        | succ n =>
          have hn : n < rest.length := by simpa using hi
          obtain ⟨m', met', hm', hmet', hass'⟩ := hspec n hn
          refine ⟨m', met', hm', hmet', ?_⟩
          have : stickyHost h (List.take (n + 2) (m :: rest))
              = stickyHost (if m.host ≠ [] then m.host else h)
                  (List.take (n + 1) rest) := rfl
          rw [this]
          exact hass'

/-- C4 fails as stated: the final backfill pass of mapStatsd copies the last
sticky host of the whole batch onto every earlier point whose host is still
empty, so a later series' host is applied to an earlier series' points. -/
theorem statsd_backward_host_counterexample :
    ∃ ms, mapStatsd
      [{ tags := [], metric := ("m").data, interval := 10, host := [],
         points := [(1, Value.vNum 2)], type := ("g").data },
       { tags := [], metric := ("m").data, interval := 10, host := ("A").data,
         points := [(1, Value.vNum 2)], type := ("g").data }] = some ms ∧
      ((ms.headD { name := [], columns := [], points := [] }).points.headD
        []).get? 2 = some (Value.vStr ("A").data) := by
  refine ⟨_, rfl, ?_⟩
  decide

/-- C4 (amended): during assembly the sticky host propagates forward only (a
series that omits its host uses the last earlier non-empty host, a hostname
tag overriding it), but a final pass then rewrites every point whose host is
still empty with the last non-empty host of the whole list, so a later
series' host can reach an earlier series' points; when nothing ever supplies
a host the slot stays the empty string.  Formally, every point of series i
ends with host finalHost series i. -/
theorem statsd_sticky_host_final (series : List StatsdMetric) (ms : List Metric)
    (hmap : mapStatsd series = some ms) :
    ms.length = series.length ∧
    ∀ i m, series.get? i = some m →
      ∃ met, ms.get? i = some met ∧ met.points.length = m.points.length ∧
        ∀ r ∈ met.points, r.get? 2 = some (Value.vStr (finalHost series i)) := by
  unfold mapStatsd at hmap
  cases hloop : mapStatsdLoop [] series with
  | none => rw [hloop] at hmap; cases hmap
  | some p =>
    rw [hloop] at hmap
    cases hmap
    obtain ⟨hf, hlen, hspec⟩ := mapStatsdLoop_spec series [] p.1 p.2
      (by rw [hloop])
    refine ⟨by simp [hlen], ?_⟩
    intro i m hm
    have hi : i < series.length := get?_some_lt hm
    obtain ⟨m', met0, hm', hmet0, hass⟩ := hspec i hi
    have hmm : m' = m := by
      rw [hm] at hm'
      exact (Option.some.inj hm').symm
    subst hmm
    obtain ⟨hplen, hrows⟩ := assembleSeries_host _ m' met0 hass
    refine ⟨{ met0 with points := met0.points.map (backfillRow p.2) }, ?_, ?_, ?_⟩
    · rw [List.get?_map, hmet0]
      rfl
    · simp [hplen]
    · intro r hr
      obtain ⟨r0, hr0, hback⟩ := List.mem_map.mp hr
      obtain ⟨hget, hlen2⟩ := hrows r0 hr0
      have hassembled : (match seriesTagHost m' with
          | some v => v
          | none => stickyHost [] (List.take (i + 1) series))
          = assembledHost series i := by
        unfold assembledHost
        rw [hm]
        rfl
      rw [hassembled] at hget
      rw [← hback]
      unfold backfillRow
      unfold finalHost
      by_cases hempty : assembledHost series i = []
      · rw [if_pos (by rw [hget, hempty])]
        rw [if_pos hempty]
        rw [← hf]
        exact List.get?_set_eq_of_lt _ hlen2
      · rw [if_neg (by
          rw [hget]
          intro hc
          exact hempty (by
            have := Option.some.inj hc
            exact Value.vStr.inj this))]
        rw [if_neg hempty]
        exact hget

theorem statsd_sticky_host_final_witness :
    ∃ ms, mapStatsd [statsdW] = some ms ∧
      (ms.length = [statsdW].length ∧
       ∀ i m, [statsdW].get? i = some m →
         ∃ met, ms.get? i = some met ∧
           met.points.length = m.points.length ∧
           ∀ r ∈ met.points,
             r.get? 2 = some (Value.vStr (finalHost [statsdW] i))) := by
  obtain ⟨ms, hms⟩ : ∃ ms, mapStatsd [statsdW] = some ms := ⟨_, rfl⟩
  exact ⟨ms, hms, statsd_sticky_host_final [statsdW] ms hms⟩

lemma insertA_mem {α : Type} {l : List (Str × α)} {k : Str} {v : α}
    {x : Str × α} (h : x ∈ insertA l k v) : x ∈ l ∨ x = (k, v) := by
  unfold insertA at h
  by_cases ha : l.any (fun kv => kv.1 = k)
  · rw [if_pos ha] at h
    obtain ⟨kv, hkv, hx⟩ := List.mem_map.mp h
    by_cases hk : kv.1 = k
    · rw [if_pos hk] at hx
      exact Or.inr hx.symm
    · rw [if_neg hk] at hx
      exact Or.inl (hx ▸ hkv)
  · rw [if_neg ha] at h
    rcases List.mem_append.mp h with h1 | h1
    · exact Or.inl h1
    · exact Or.inr (List.mem_singleton.mp h1)

lemma lookupA_mem {α : Type} {l : List (Str × α)} {k : Str} {v : α}
    (h : lookupA l k = some v) : (k, v) ∈ l := by
  unfold lookupA at h
  cases hf : l.find? (fun kv => kv.1 = k) with
  | none => rw [hf] at h; cases h
  | some kv =>
    rw [hf] at h
    have hmem := List.mem_of_find?_eq_some hf
    have hpred := List.find?_some hf
    have hk : kv.1 = k := by simpa using hpred
    have hv : kv.2 = v := Option.some.inj h
    have : kv = (k, v) := by
      cases kv
      simp_all
    exact this ▸ hmem

lemma keys_nodup_unique {α : Type} {l : List (Str × α)}
    (hnd : (l.map Prod.fst).Nodup) {k : Str} {a b : α}
    (ha : (k, a) ∈ l) (hb : (k, b) ∈ l) : a = b := by
  induction l with
  | nil => cases ha
  | cons x xs ih =>
    rw [List.map_cons, List.nodup_cons] at hnd
    cases ha with
    | head =>
      cases hb with
      | head => rfl
      | tail _ hb =>
        exact absurd (List.mem_map.mpr ⟨(k, b), hb, rfl⟩) hnd.1
    | tail _ ha =>
      cases hb with
      | head =>
        exact absurd (List.mem_map.mpr ⟨(k, a), ha, rfl⟩) hnd.1
      | tail _ hb => exact ih hnd.2 ha hb

lemma lookupA_of_mem_nodup {α : Type} {l : List (Str × α)}
    (hnd : (l.map Prod.fst).Nodup) {k : Str} {v : α} (h : (k, v) ∈ l) :
    lookupA l k = some v := by
  induction l with
  | nil => cases h
  | cons x xs ih =>
    rw [List.map_cons, List.nodup_cons] at hnd
    cases h with
    | head =>
      unfold lookupA
      simp [List.find?]
    | tail _ h =>
      have hx : ¬(x.1 = k) := by
        intro hh
        exact hnd.1 (List.mem_map.mpr ⟨(k, v), h, hh.symm⟩)
      unfold lookupA
      simp only [List.find?]
      rw [show (decide (x.1 = k)) = false by simp [hx]]
      exact ih hnd.2 h

lemma insertA_keys_nodup {α : Type} (l : List (Str × α)) (k : Str) (v : α)
    (h : (l.map Prod.fst).Nodup) :
    ((insertA l k v).map Prod.fst).Nodup := by
  unfold insertA
  by_cases ha : l.any (fun kv => kv.1 = k)
  · rw [if_pos ha]
    have : (l.map (fun kv => if kv.1 = k then (k, v) else kv)).map Prod.fst
        = l.map Prod.fst := by
      rw [List.map_map]
      apply List.map_congr_left
      intro kv _
      by_cases hk : kv.1 = k
      · simp [hk]
      · simp [hk]
    rw [this]
    exact h
  · rw [if_neg ha]
    rw [List.map_append]
    rw [List.nodup_append]
    refine ⟨h, by simp, ?_⟩
    intro a hamem hb
    simp only [List.map_cons, List.map_nil, List.mem_singleton] at hb
    subst hb
    obtain ⟨kv, hkvmem, hkv⟩ := List.mem_map.mp hamem
    exact ha (List.any_eq_true.mpr ⟨kv, hkvmem, by simpa using hkv⟩)

lemma addToExtraMetric_shape (em : ExtraMetric) (v : Value)
    (tags : List (Str × Value)) (em' : ExtraMetric)
    (h : addToExtraMetric em v tags = some em') :
    em'.Values = em.Values ++ [v] ∧ em'.Tags.length = em.Tags.length + 1 ∧
    em'.Timestamp = em.Timestamp := by
  unfold addToExtraMetric at h
  cases ht : explodeTags tags with
  | none => rw [ht] at h; cases h
  | some t' =>
    rw [ht] at h
    cases h
    exact ⟨rfl, by simp, rfl⟩

lemma buildStep_char (groups : List (Str × List (Str × ExtraMetric)))
    (e : ExtraInput) (groups' : List (Str × List (Str × ExtraMetric)))
    (h : buildExtraStep groups e = some groups') :
    ∃ gf em', GroupMetric e.name = some gf ∧
      addToExtraMetric ((lookupA ((lookupA groups gf.1).getD []) gf.2).getD
        ⟨[], [], goUint64 (e.tsSec * 1000)⟩) e.value e.tags = some em' ∧
      groups' = insertA groups gf.1
        (insertA ((lookupA groups gf.1).getD []) gf.2 em') := by
  simp only [buildExtraStep] at h
  cases hgf : GroupMetric e.name with
  | none => rw [hgf] at h; cases h
  | some gf =>
    rw [hgf] at h
    change (addToExtraMetric ((lookupA ((lookupA groups gf.1).getD []) gf.2).getD
        ⟨[], [], goUint64 (e.tsSec * 1000)⟩) e.value e.tags).bind
      (fun em' => some (insertA groups gf.1
        (insertA ((lookupA groups gf.1).getD []) gf.2 em'))) = some groups' at h
    cases hadd : addToExtraMetric ((lookupA ((lookupA groups gf.1).getD []) gf.2).getD
        ⟨[], [], goUint64 (e.tsSec * 1000)⟩) e.value e.tags with
    | none => rw [hadd] at h; cases h
    | some em' =>
      rw [hadd] at h
      cases h
      exact ⟨gf, em', rfl, hadd, rfl⟩

lemma buildStep_good (groups : List (Str × List (Str × ExtraMetric)))
    (e : ExtraInput) (groups' : List (Str × List (Str × ExtraMetric)))
    (hg : goodGroups groups) (h : buildExtraStep groups e = some groups') :
    goodGroups groups' := by
  obtain ⟨gf, em', hgf, hadd, hq⟩ := buildStep_char groups e groups' h
  obtain ⟨hv, ht, -⟩ := addToExtraMetric_shape _ _ _ _ hadd
  have hgrp : goodFields ((lookupA groups gf.1).getD []) := by
    cases hl : lookupA groups gf.1 with
    | none => exact ⟨by simp, by simp⟩
    | some fields =>
      rw [Option.getD_some]
      exact hg (gf.1, fields) (lookupA_mem hl)
  have hem : (((lookupA ((lookupA groups gf.1).getD []) gf.2).getD
      ⟨[], [], goUint64 (e.tsSec * 1000)⟩)).Tags.length
      = (((lookupA ((lookupA groups gf.1).getD []) gf.2).getD
      ⟨[], [], goUint64 (e.tsSec * 1000)⟩)).Values.length := by
    cases hl : lookupA ((lookupA groups gf.1).getD []) gf.2 with
    | none => rfl
    | some em0 =>
      rw [Option.getD_some]
      exact (hgrp.2 (gf.2, em0) (lookupA_mem hl)).2
  subst hq
  intro ge hge
  rcases insertA_mem hge with hin | hnew
  · exact hg ge hin
  · subst hnew
    refine ⟨insertA_keys_nodup _ _ _ hgrp.1, ?_⟩
    intro fe hfe
    rcases insertA_mem hfe with hin2 | hnew2
    · exact hgrp.2 fe hin2
    · subst hnew2
      constructor
      · rw [hv]
        simp
      · rw [ht, hv, hem]
        simp

lemma buildStep_count (groups : List (Str × List (Str × ExtraMetric)))
    (e : ExtraInput) (groups' : List (Str × List (Str × ExtraMetric)))
    (h : buildExtraStep groups e = some groups') (g f : Str) :
    sizeGF groups' g f = if GroupMetric e.name = some (g, f)
      then sizeGF groups g f + 1 else sizeGF groups g f := by
  obtain ⟨gf, em', hgf, hadd, hq⟩ := buildStep_char groups e groups' h
  obtain ⟨hv, -, -⟩ := addToExtraMetric_shape _ _ _ _ hadd
  subst hq
  by_cases hgfe : gf = (g, f)
  · subst hgfe
    rw [if_pos (by rw [hgf])]
    unfold sizeGF
    rw [lookupA_insertA_self]
    simp only [optSomeBind]
    rw [lookupA_insertA_self]
    simp only [Option.map_some', Option.getD_some, hv]
    cases hl : lookupA groups g with
    | none =>
      simp [lookupA]
    | some fields =>
      simp only [Option.getD_some, optSomeBind]
      cases hl2 : lookupA fields f with
      | none => simp
      | some em0 => simp
  · rw [if_neg (by rw [hgf]; intro hc; exact hgfe (Option.some.inj hc))]
    unfold sizeGF
    by_cases hgeq : g = gf.1
    · subst hgeq
      rw [lookupA_insertA_self]
      simp only [optSomeBind]
      have hfne : f ≠ gf.2 := by
        intro hc
        exact hgfe (by cases gf; simp_all)
      rw [lookupA_insertA_ne _ _ _ _ hfne]
      cases hl : lookupA groups gf.1 with
      | none =>
        simp [lookupA]
      | some fields =>
        simp only [Option.getD_some, optSomeBind]
    · rw [lookupA_insertA_ne _ _ _ _ hgeq]

lemma buildFold_good (data : List ExtraInput) :
    ∀ (acc groups : List (Str × List (Str × ExtraMetric))),
      goodGroups acc → data.foldlM buildExtraStep acc = some groups →
      goodGroups groups := by
  induction data with
  | nil =>
    intro acc groups hacc h
    cases h
    exact hacc
  | cons e rest ih =>
    intro acc groups hacc h
    rw [List.foldlM_cons] at h
    cases hstep : buildExtraStep acc e with
    | none => rw [hstep] at h; cases h
    | some acc' =>
      rw [hstep] at h
      exact ih acc' groups (buildStep_good acc e acc' hacc hstep) h

lemma countGF_cons (e : ExtraInput) (rest : List ExtraInput) (g f : Str) :
    countGF (e :: rest) g f
      = (if GroupMetric e.name = some (g, f) then 1 else 0) + countGF rest g f := by
  unfold countGF
  by_cases hc : GroupMetric e.name = some (g, f)
  · rw [if_pos hc]
    rw [List.filter_cons_of_pos (by simpa using hc)]
    simp only [List.length_cons]
    omega
  · rw [if_neg hc]
    rw [List.filter_cons_of_neg (by simpa using hc)]
    simp

lemma buildFold_count (data : List ExtraInput) :
    ∀ (acc groups : List (Str × List (Str × ExtraMetric))),
      data.foldlM buildExtraStep acc = some groups → ∀ g f,
      sizeGF groups g f = sizeGF acc g f + countGF data g f := by
  induction data with
  | nil =>
    intro acc groups h g f
    cases h
    simp [countGF]
  | cons e rest ih =>
    intro acc groups h g f
    rw [List.foldlM_cons] at h
    cases hstep : buildExtraStep acc e with
    | none => rw [hstep] at h; cases h
    | some acc' =>
      rw [hstep] at h
      rw [ih acc' groups h g f, buildStep_count acc e acc' hstep g f,
        countGF_cons]
      by_cases hc : GroupMetric e.name = some (g, f)
      · rw [if_pos hc, if_pos hc]
        omega
      · rw [if_neg hc, if_neg hc]
        omega

lemma buildExtra_good (data : List ExtraInput)
    (groups : List (Str × List (Str × ExtraMetric)))
    (h : buildExtra data = some groups) : goodGroups groups :=
  buildFold_good data [] groups (fun ge hge => absurd hge (List.not_mem_nil ge)) h

lemma buildExtra_count (data : List ExtraInput)
    (groups : List (Str × List (Str × ExtraMetric)))
    (h : buildExtra data = some groups) (g f : Str) :
    sizeGF groups g f = countGF data g f := by
  rw [buildFold_count data [] groups h g f]
  simp [sizeGF, lookupA]

lemma tmTagStep_count (i : Nat) (s : List Str × List (List Value))
    (kv : Str × Value) : (tmTagStep i s kv).2.length = s.2.length := by
  cases hf : s.1.findIdx? (fun c => c = if kv.1 = timeS ∨ kv.1 = valueS
      then '_' :: kv.1 else kv.1) with
  | some j =>
    have hstep : tmTagStep i s kv
        = (s.1, s.2.set i (((s.2.get? i).getD []).set j kv.2)) := by
      simp only [tmTagStep]
      rw [hf]
    rw [hstep, List.length_set]
  | none =>
    have hstep : tmTagStep i s kv
        = (s.1 ++ [if kv.1 = timeS ∨ kv.1 = valueS then '_' :: kv.1 else kv.1],
           s.2.enum.map (fun jr =>
             jr.2 ++ [if jr.1 = i then kv.2 else Value.vNull])) := by
      simp only [tmTagStep]
      rw [hf]
    rw [hstep]
    simp

lemma toMetric_points_length (em : ExtraMetric) (host name : Str) :
    (em.ToMetric host name).points.length = em.Values.length := by
  have hfold : ∀ (l : List (Nat × List (Str × Value)))
      (s : List Str × List (List Value)),
      (l.foldl (fun s it => it.2.foldl (tmTagStep it.1) s) s).2.length
        = s.2.length := by
    intro l
    induction l with
    | nil => intro s; rfl
    | cons it tl ih =>
      intro s
      rw [List.foldl_cons, ih]
      have hinner : ∀ (tags : List (Str × Value))
          (s0 : List Str × List (List Value)),
          (tags.foldl (tmTagStep it.1) s0).2.length = s0.2.length := by
        intro tags
        induction tags with
        | nil => intro s0; rfl
        | cons kv ktl kih =>
          intro s0
          rw [List.foldl_cons, kih, tmTagStep_count]
      exact hinner it.2 s
  have := hfold em.Tags.enum
    ([timeS, valueS, hostnameS],
     em.Values.map (fun v => [Value.vNat em.Timestamp, v, Value.vStr host]))
  simpa using this

lemma toMetric_columns_take (em : ExtraMetric) (host name : Str) :
    (em.ToMetric host name).columns.take 3 = [timeS, valueS, hostnameS] := by
  have hfold : ∀ (l : List (Nat × List (Str × Value)))
      (s : List Str × List (List Value)),
      ∃ ext, (l.foldl (fun s it => it.2.foldl (tmTagStep it.1) s) s).1
        = s.1 ++ ext := by
    intro l
    induction l with
    | nil => intro s; exact ⟨[], by simp⟩
    | cons it tl ih =>
      intro s
      have hinner : ∀ (tags : List (Str × Value))
          (s0 : List Str × List (List Value)),
          ∃ ext, (tags.foldl (tmTagStep it.1) s0).1 = s0.1 ++ ext := by
        intro tags
        induction tags with
        | nil => intro s0; exact ⟨[], by simp⟩
        | cons kv ktl kih =>
          intro s0
          obtain ⟨ext1, hext1⟩ := kih (tmTagStep it.1 s0 kv)
          cases hf : s0.1.findIdx? (fun c => c = if kv.1 = timeS ∨ kv.1 = valueS
              then '_' :: kv.1 else kv.1) with
          | some j =>
            have hstep : (tmTagStep it.1 s0 kv).1 = s0.1 := by
              simp only [tmTagStep]
              rw [hf]
            rw [List.foldl_cons]
            exact ⟨ext1, by rw [hext1, hstep]⟩
          | none =>
            have hstep : (tmTagStep it.1 s0 kv).1
                = s0.1 ++ [if kv.1 = timeS ∨ kv.1 = valueS
                    then '_' :: kv.1 else kv.1] := by
              simp only [tmTagStep]
              rw [hf]
            rw [List.foldl_cons]
            refine ⟨(if kv.1 = timeS ∨ kv.1 = valueS
              then '_' :: kv.1 else kv.1) :: ext1, ?_⟩
            rw [hext1, hstep]
            simp
      obtain ⟨ext1, hext1⟩ := hinner it.2 s
      obtain ⟨ext2, hext2⟩ := ih (it.2.foldl (tmTagStep it.1) s)
      rw [List.foldl_cons]
      exact ⟨ext1 ++ ext2, by rw [hext2, hext1, List.append_assoc]⟩
  obtain ⟨ext, hext⟩ := hfold em.Tags.enum
    ([timeS, valueS, hostnameS],
     em.Values.map (fun v => [Value.vNat em.Timestamp, v, Value.vStr host]))
  have hcols : (em.ToMetric host name).columns
      = [timeS, valueS, hostnameS] ++ ext := hext
  rw [hcols]
  have h3 : (3 : Nat) = ([timeS, valueS, hostnameS] : List Str).length := rfl
  rw [h3, List.take_left]

lemma extraFold_char (host g : Str) (fields : List (Str × ExtraMetric)) :
    (∀ fe ∈ fields, 1 ≤ fe.2.Values.length ∧
      fe.2.Tags.length = fe.2.Values.length) →
    ∀ s : GroupAcc, fields.foldlM (extraGroupStep host g) s = some
      { metrics := s.metrics ++ (multisOf fields).map
          (fun fe => fe.2.ToMetric host (g ++ '.' :: fe.1)),
        groupValues := s.groupValues ++ singleFieldValues fields,
        groupTags := (singlesOf fields).foldl (fun gt fe =>
          (fe.2.Tags.headD []).foldl
            (fun gt kv => insertA gt kv.1 kv.2) gt) s.groupTags,
        groupTimestamp := (singlesOf fields).foldl
          (fun _ fe => fe.2.Timestamp) s.groupTimestamp } := by
  induction fields with
  | nil =>
    intro _ s
    cases s
    simp [multisOf, singlesOf, singleFieldValues]
  | cons fe tl ih =>
    intro hgood s
    rw [List.foldlM_cons]
    by_cases hlen : 1 < fe.2.Values.length
    · have hstep : extraGroupStep host g s fe = some { s with
          metrics := s.metrics ++ [fe.2.ToMetric host (g ++ '.' :: fe.1)] } := by
        unfold extraGroupStep
        rw [if_pos hlen]
      rw [hstep]
      have hbind : (some { s with
          metrics := s.metrics ++ [fe.2.ToMetric host (g ++ '.' :: fe.1)] }).bind
          (fun s' => tl.foldlM (extraGroupStep host g) s')
          = tl.foldlM (extraGroupStep host g) { s with
              metrics := s.metrics ++ [fe.2.ToMetric host (g ++ '.' :: fe.1)] } :=
        rfl
      show (some { s with
          metrics := s.metrics ++ [fe.2.ToMetric host (g ++ '.' :: fe.1)] }).bind
          (fun s' => tl.foldlM (extraGroupStep host g) s') = _
      rw [hbind, ih (fun fe h => hgood fe (List.mem_cons_of_mem _ h))]
      have hm : multisOf (fe :: tl) = fe :: multisOf tl := by
        unfold multisOf
        rw [List.filter_cons_of_pos (by simpa using hlen)]
      have hs : singlesOf (fe :: tl) = singlesOf tl := by
        unfold singlesOf
        rw [List.filter_cons_of_neg (by simpa using hlen)]
      have hsf : singleFieldValues (fe :: tl) = singleFieldValues tl := by
        unfold singleFieldValues
        rw [hs]
      rw [hm, hs, hsf]
      simp [List.append_assoc]
    · have h1 : 1 ≤ fe.2.Values.length := (hgood fe (List.mem_cons_self _ _)).1
      have htlen : fe.2.Tags.length = fe.2.Values.length :=
        (hgood fe (List.mem_cons_self _ _)).2
      have hv0 : fe.2.Values.head? = some (fe.2.Values.headD Value.vNull) := by
        cases hx : fe.2.Values with
        | nil => rw [hx] at h1; simp at h1
        | cons a tla => simp
      have ht0 : fe.2.Tags.head? = some (fe.2.Tags.headD []) := by
        cases hx : fe.2.Tags with
        | nil =>
          rw [hx] at htlen
          simp only [List.length_nil] at htlen
          omega
        | cons a tla => simp
      have hstep : extraGroupStep host g s fe = some { s with
          groupValues := s.groupValues
            ++ [(fe.1, fe.2.Values.headD Value.vNull)],
          groupTags := (fe.2.Tags.headD []).foldl
            (fun gt kv => insertA gt kv.1 kv.2) s.groupTags,
          groupTimestamp := fe.2.Timestamp } := by
        unfold extraGroupStep
        rw [if_neg hlen]
        rw [hv0]
        show (some (fe.2.Values.headD Value.vNull)).bind _ = _
        rw [optSomeBind, ht0]
        rfl
      rw [hstep]
      show (some _).bind (fun s' => tl.foldlM (extraGroupStep host g) s') = _
      rw [optSomeBind, ih (fun fe h => hgood fe (List.mem_cons_of_mem _ h))]
      have hm : multisOf (fe :: tl) = multisOf tl := by
        unfold multisOf
        rw [List.filter_cons_of_neg (by simpa using hlen)]
      have hs : singlesOf (fe :: tl) = fe :: singlesOf tl := by
        unfold singlesOf
        rw [List.filter_cons_of_pos (by simpa using hlen)]
      have hsf : singleFieldValues (fe :: tl)
          = (fe.1, fe.2.Values.headD Value.vNull) :: singleFieldValues tl := by
        unfold singleFieldValues
        rw [hs]
        rfl
      rw [hm, hs, hsf]
      simp [List.append_assoc]

lemma extraGroupOut_char (host g : Str) (fields : List (Str × ExtraMetric))
    (hgood : ∀ fe ∈ fields, 1 ≤ fe.2.Values.length ∧
      fe.2.Tags.length = fe.2.Values.length) :
    extraGroupOut host g fields = some (
      (multisOf fields).map (fun fe => fe.2.ToMetric host (g ++ '.' :: fe.1)) ++
      (if singlesOf fields = [] then []
       else [NewMetricGroup host g (lastTsOf fields)
         (singleFieldValues fields) (mergedTagsOf fields)])) := by
  unfold extraGroupOut
  rw [extraFold_char host g fields hgood ⟨[], [], [], 0⟩]
  rw [optSomeBindM]
  by_cases hs : singlesOf fields = []
  · have hsf : singleFieldValues fields = [] := by
      unfold singleFieldValues
      rw [hs]
      rfl
    rw [if_pos hs]
    simp [hsf]
  · have hsf : singleFieldValues fields ≠ [] := by
      unfold singleFieldValues
      intro hc
      exact hs (List.map_eq_nil.mp hc)
    rw [if_neg hs]
    have : (([] : List (Str × Value)) ++ singleFieldValues fields) ≠ [] := by
      simpa using hsf
    rw [if_pos this]
    unfold lastTsOf mergedTagsOf
    simp

lemma mapExtraFold_acc (host : Str) (gl : List (Str × List (Str × ExtraMetric))) :
    ∀ (ms0 ms : List Metric),
      gl.foldlM (fun ms ge => do
        let out ← extraGroupOut host ge.1 ge.2
        some (ms ++ out)) ms0 = some ms →
      (∀ x ∈ ms0, x ∈ ms) ∧
      ∀ ge ∈ gl, ∃ out, extraGroupOut host ge.1 ge.2 = some out ∧
        ∀ x ∈ out, x ∈ ms := by
  induction gl with
  | nil =>
    intro ms0 ms h
    cases h
    exact ⟨fun x hx => hx, fun ge hge => absurd hge (List.not_mem_nil ge)⟩
  | cons ge tl ih =>
    intro ms0 ms h
    rw [List.foldlM_cons] at h
    cases hout : extraGroupOut host ge.1 ge.2 with
    | none =>
      rw [hout] at h
      cases h
    | some out =>
      rw [hout] at h
      have h' : tl.foldlM (fun ms ge => do
          let out ← extraGroupOut host ge.1 ge.2
          some (ms ++ out)) (ms0 ++ out) = some ms := h
      obtain ⟨hsub, hall⟩ := ih (ms0 ++ out) ms h'
      refine ⟨fun x hx => hsub x (List.mem_append_left _ hx), ?_⟩
      intro ge' hge'
      cases hge' with
      | head =>
        exact ⟨out, hout, fun x hx => hsub x (List.mem_append_right _ hx)⟩
      | tail _ hge' => exact hall ge' hge'

/-- C3: a (group, field) pair with exactly one observed sample folds into the
group's single wide row, while a pair with two or more samples is emitted as
an independent record whose columns begin with time, value, hostname, with
one row per sample, and its field never enters the wide row's value map. -/
theorem extra_metric_fanout (host : Str) (data : List ExtraInput)
    (metrics : List Metric) (groups : List (Str × List (Str × ExtraMetric)))
    (g f : Str) (fields : List (Str × ExtraMetric)) (em : ExtraMetric)
    (h1 : mapExtraMetrics host data = some metrics)
    (h2 : buildExtra data = some groups)
    (h3 : lookupA groups g = some fields)
    (h4 : lookupA fields f = some em) :
    em.Values.length = countGF data g f ∧
    (2 ≤ countGF data g f →
      em.ToMetric host (g ++ '.' :: f) ∈ metrics ∧
      (em.ToMetric host (g ++ '.' :: f)).columns.take 3
        = [timeS, valueS, hostnameS] ∧
      (em.ToMetric host (g ++ '.' :: f)).points.length = countGF data g f ∧
      lookupA (singleFieldValues fields) f = none ∧
      (singlesOf fields ≠ [] →
        NewMetricGroup host g (lastTsOf fields) (singleFieldValues fields)
          (mergedTagsOf fields) ∈ metrics)) ∧
    (countGF data g f = 1 →
      NewMetricGroup host g (lastTsOf fields) (singleFieldValues fields)
        (mergedTagsOf fields) ∈ metrics ∧
      lookupA (singleFieldValues fields) f
        = some (em.Values.headD Value.vNull)) := by
  have hgoodG := buildExtra_good data groups h2
  have hgf : goodFields fields := hgoodG (g, fields) (lookupA_mem h3)
  have hcount : em.Values.length = countGF data g f := by
    have hc := buildExtra_count data groups h2 g f
    unfold sizeGF at hc
    rw [h3] at hc
    simp only [optSomeBind, h4, Option.map_some', Option.getD_some] at hc
    exact hc
  unfold mapExtraMetrics at h1
  rw [h2, optSomeBindM] at h1
  obtain ⟨-, hall⟩ := mapExtraFold_acc host groups [] metrics h1
  obtain ⟨out, hout, houtsub⟩ := hall (g, fields) (lookupA_mem h3)
  rw [extraGroupOut_char host g fields hgf.2] at hout
  have hout_eq : out
      = (multisOf fields).map (fun fe => fe.2.ToMetric host (g ++ '.' :: fe.1))
        ++ (if singlesOf fields = [] then []
            else [NewMetricGroup host g (lastTsOf fields)
              (singleFieldValues fields) (mergedTagsOf fields)]) :=
    (Option.some.inj hout).symm
  subst hout_eq
  have hfem : (f, em) ∈ fields := lookupA_mem h4
  refine ⟨hcount, ?_, ?_⟩
  · intro hn2
    have hlen2 : 1 < em.Values.length := by omega
    have hmulti : (f, em) ∈ multisOf fields := by
      unfold multisOf
      exact List.mem_filter.mpr ⟨hfem, by simpa using hlen2⟩
    refine ⟨?_, toMetric_columns_take em host (g ++ '.' :: f), ?_, ?_, ?_⟩
    · exact houtsub _ (List.mem_append_left _
        (List.mem_map.mpr ⟨(f, em), hmulti, rfl⟩))
    · rw [toMetric_points_length, hcount]
    · cases hl : lookupA (singleFieldValues fields) f with
      | none => rfl
      | some v =>
        obtain ⟨fe, hfeS, hfeq⟩ := List.mem_map.mp (lookupA_mem hl)
        have hf1 : fe.1 = f := congrArg Prod.fst hfeq
        have hfein : fe ∈ fields := List.mem_of_mem_filter hfeS
        have hfle : ¬(1 < fe.2.Values.length) := by
          have := List.of_mem_filter hfeS
          simpa using this
        have hfe2 : fe.2 = em := by
          have : (f, fe.2) ∈ fields := by
            rw [← hf1]
            exact hfein
          exact keys_nodup_unique hgf.1 this hfem
        rw [hfe2] at hfle
        omega
    · intro hs
      exact houtsub _ (List.mem_append_right _ (by
        rw [if_neg hs]
        exact List.mem_singleton.mpr rfl))
  · intro hn1
    have hlen1 : ¬(1 < em.Values.length) := by omega
    have hsingle : (f, em) ∈ singlesOf fields := by
      unfold singlesOf
      exact List.mem_filter.mpr ⟨hfem, by simpa using hlen1⟩
    have hsne : singlesOf fields ≠ [] := List.ne_nil_of_mem hsingle
    constructor
    · exact houtsub _ (List.mem_append_right _ (by
        rw [if_neg hsne]
        exact List.mem_singleton.mpr rfl))
    · have hmemv : (f, em.Values.headD Value.vNull) ∈ singleFieldValues fields := by
        unfold singleFieldValues
        exact List.mem_map.mpr ⟨(f, em), hsingle, rfl⟩
      have hndk : ((singleFieldValues fields).map Prod.fst).Nodup := by
        have heq : (singleFieldValues fields).map Prod.fst
            = (singlesOf fields).map Prod.fst := by
          unfold singleFieldValues
          rw [List.map_map]
          rfl
        rw [heq]
        have hsub : List.Sublist ((singlesOf fields).map Prod.fst)
            (fields.map Prod.fst) :=
          List.Sublist.map Prod.fst (List.filter_sublist fields)
        exact hgf.1.sublist hsub
      exact lookupA_of_mem_nodup hndk hmemv

/-- Witness for extra_metric_fanout: the concrete batch extraDataW carries
two samples of field f and one sample of field k in group g, exercising
both the multi-sample and the single-sample branch. -/
theorem extra_metric_fanout_witness :
    ∃ metrics groups fields emf emk,
      mapExtraMetrics ("h").data extraDataW = some metrics ∧
      buildExtra extraDataW = some groups ∧
      lookupA groups ("g").data = some fields ∧
      lookupA fields ("f").data = some emf ∧
      lookupA fields ("k").data = some emk ∧
      emf.Values.length = countGF extraDataW ("g").data ("f").data ∧
      2 ≤ countGF extraDataW ("g").data ("f").data ∧
      emf.ToMetric ("h").data (("g").data ++ '.' :: ("f").data) ∈ metrics ∧
      (emf.ToMetric ("h").data
        (("g").data ++ '.' :: ("f").data)).points.length
        = countGF extraDataW ("g").data ("f").data ∧
      lookupA (singleFieldValues fields) ("f").data = none ∧
      countGF extraDataW ("g").data ("k").data = 1 ∧
      NewMetricGroup ("h").data ("g").data (lastTsOf fields)
        (singleFieldValues fields) (mergedTagsOf fields) ∈ metrics ∧
      lookupA (singleFieldValues fields) ("k").data
        = some (emk.Values.headD Value.vNull) := by
  have mainf := extra_metric_fanout ("h").data extraDataW _ _
    ("g").data ("f").data _ _ rfl rfl rfl rfl
  have maink := extra_metric_fanout ("h").data extraDataW _ _
    ("g").data ("k").data _ _ rfl rfl rfl rfl
  have h2f : 2 ≤ countGF extraDataW ("g").data ("f").data := by decide
  have h1k : countGF extraDataW ("g").data ("k").data = 1 := by decide
  refine ⟨_, _, _, _, _, rfl, rfl, rfl, rfl, rfl,
    mainf.1, h2f, (mainf.2.1 h2f).1, (mainf.2.1 h2f).2.2.1,
    (mainf.2.1 h2f).2.2.2.1, h1k, (maink.2.2 h1k).1, (maink.2.2 h1k).2⟩
